import Mathlib

set_option maxRecDepth 10000
set_option linter.unusedSectionVars false

namespace Minimoore

/-! Shallow embedding of the minimoore repository
(src/minimoore/transducers.py, src/minimoore/moore.py,
src/minimoore/fixpoints.py; `complete_sink` is modelled from the spec,
see its doc comment).

Conventions of the embedding:
* Python state ids are dense integers assigned from 0; we use `Nat`
  (a negative id is never a valid state, and no claim depends on one).
* Python `set`/`dict` iteration order is unspecified; mutable sets are
  embedded as duplicate-free `List`s, with `List.insert` for `set.add`,
  `List.erase` for `set.discard`, and the list head for `set.pop`,
  fixing one concrete iteration order.  Frozen sets of states are
  embedded as `Finset Nat`, enumerated in increasing order where the
  code takes `next(iter(...))`.
* An operation that can raise is embedded with `Option`/`Except`:
  `none`/`.error` means the Python call raised.
-/

/-- The mutable members of `FiniteTransducer` / `FiniteDetTransducer` /
`MooreDetMachine` (transducers.py lines 20-23 and 141-144, moore.py
lines 25-33).  The transition dictionary stores the full triple
`(s, a, s2)` under keys `[s][a]`; since the stored source and symbol
always equal the keys, storing only the destination `trans s a = some s2`
is lossless (the triples are rebuilt by `transitions`). -/
structure Machine (I O : Type) where
  n_states : Nat
  output_table : Nat → Option O
  trans : Nat → I → Option Nat
  input_symbols : List I
  output_symbols : List O
  init_states : List Nat
  init_state : Option Nat

variable {I O : Type} [DecidableEq I] [DecidableEq O]

/-- `FiniteTransducer.__init__` + `FiniteDetTransducer.__init__` +
`MooreDetMachine.__init__`: an empty machine. -/
def empty_machine : Machine I O :=
  { n_states := 0
    output_table := fun _ => none
    trans := fun _ _ => none
    input_symbols := []
    output_symbols := []
    init_states := []
    init_state := none }

/-- `FiniteTransducer.is_state` (transducers.py line 74). -/
def is_state (m : Machine I O) (s : Nat) : Bool := decide (s < m.n_states)

/-- `FiniteTransducer.new_state` plus `MooreDetMachine._register_state`
(fresh empty output entry and empty transition row for the new id).
Returns the machine and the created id. -/
def new_state (m : Machine I O) : Machine I O × Nat :=
  ({ m with
      n_states := m.n_states + 1
      output_table := fun s => if s = m.n_states then none else m.output_table s
      trans := fun s => if s = m.n_states then (fun _ => none) else m.trans s },
   m.n_states)

/-- `MooreDetMachine.set_state_output` (moore.py lines 40-44).  The
`assert self.is_state(state)` is a precondition; theorems below only
apply it to valid states. -/
def set_state_output (m : Machine I O) (state : Nat) (output : O) : Machine I O :=
  { m with
      output_table := fun s => if s = state then some output else m.output_table s
      output_symbols := m.output_symbols.insert output }

/-- `MooreDetMachine.new_state_output` (moore.py lines 46-50). -/
def new_state_output (m : Machine I O) (output : O) : Machine I O × Nat :=
  let p := new_state m
  (set_state_output p.1 p.2 output, p.2)

/-- `MooreDetMachine.new_transition` (moore.py lines 52-63); the two
`assert self.is_state` are preconditions. -/
def new_transition (m : Machine I O) (s1 : Nat) (a : I) (s2 : Nat) : Machine I O :=
  { m with
      trans := fun s b => if s = s1 ∧ b = a then some s2 else m.trans s b
      input_symbols := m.input_symbols.insert a }

/-- `FiniteDetTransducer.set_initial` (transducers.py lines 146-151):
it first clears `init_states`, then `FiniteTransducer.set_initial`
raises `ValueError` on an invalid id (`.error`, with the machine left
in its cleared state) or adds the state; only on success is
`init_state` reassigned. -/
def set_initial (m : Machine I O) (s : Nat) : Except (Machine I O) (Machine I O) :=
  let cleared := { m with init_states := ([] : List Nat) }
  if s < m.n_states then
    .ok { cleared with init_states := [s], init_state := some s }
  else
    .error cleared

/-- The machine state after a `set_initial` call, whether or not the
call raised (the `.error` payload is the machine as the exception
leaves it). -/
def after_set_initial (m : Machine I O) (s : Nat) : Machine I O :=
  match set_initial m s with
  | .ok m2 => m2
  | .error m2 => m2

/-- `MooreDetMachine.arcs_from` (moore.py lines 75-77): the key set of
the transition row.  Every key inserted by `new_transition` is also in
`input_symbols`, so the row's keys are the alphabet symbols whose entry
is present. -/
def arcs_from (m : Machine I O) (s : Nat) : Finset I :=
  m.input_symbols.toFinset.filter (fun a => (m.trans s a).isSome)

/-- `FiniteDetTransducer.det_step` (transducers.py lines 153-173),
specialised by `MooreDetMachine.step` (moore.py lines 79-91): on a
present arc the unique candidate is `(destination, output of the
current state)`.  An unassigned output makes `step`'s `output_fn`
assertion fail; that raise is embedded as `none` (for machines with all
outputs assigned, where all claims below live, the two never differ). -/
def det_step (m : Machine I O) (s : Nat) (a : I) : Option (Nat × O) :=
  if a ∈ arcs_from m s then
    (m.trans s a).bind (fun t => (m.output_table s).map (fun o => (t, o)))
  else none

/-- `FiniteDetTransducer.process_word_from` (transducers.py lines
175-202). -/
def process_word_from (m : Machine I O) (s : Nat) :
    List I → Bool → Option (List O × Nat)
  | [], _ => some ([], s)
  | a :: w, strict =>
    match det_step m s a with
    | some ta => (process_word_from m ta.1 w strict).map (fun p => (ta.2 :: p.1, p.2))
    | none => if strict then none else some ([], s)

/-- `FiniteDetTransducer.process_word` (transducers.py lines 204-218);
`assert self.init_state is not None` raising is `none`. -/
def process_word (m : Machine I O) (w : List I) (strict : Bool) : Option (List O) :=
  match m.init_state with
  | some s0 => (process_word_from m s0 w strict).map (fun p => p.1)
  | none => none

/-- `FiniteTransducer.is_complete` (transducers.py lines 126-135). -/
def is_complete (m : Machine I O) : Bool :=
  (List.range m.n_states).all
    (fun s => !decide ((arcs_from m s).card < m.input_symbols.toFinset.card))

/-- `MooreDetMachine.transitions` (moore.py lines 93-98): all stored
triples. -/
def transitions (m : Machine I O) : List (Nat × I × Nat) :=
  (List.range m.n_states).flatMap
    (fun s => m.input_symbols.filterMap (fun a => (m.trans s a).map (fun t => (s, a, t))))

/-- `FiniteTransducer.__eq__` (transducers.py lines 25-50): structural
equality of state count, initial-state set, the two alphabets and the
transition set (the per-state output table is not compared). -/
def feq (m1 m2 : Machine I O) : Bool :=
  m1.n_states == m2.n_states
  && decide (m1.init_states.toFinset = m2.init_states.toFinset)
  && decide (m1.input_symbols.toFinset = m2.input_symbols.toFinset)
  && decide (m1.output_symbols.toFinset = m2.output_symbols.toFinset)
  && decide ((transitions m1).toFinset = (transitions m2).toFinset)

/-! ### fixpoints.py -/

/-- `fixpoints.reach_fixpoint` (fixpoints.py lines 12-40): iterate
`x ← fn x` while the cardinality changes, unless `stop_cond` fires
first; `x_len` starts at `-1`.  The Python loop has no fuel and can
diverge for a non-monotone `fn`; the embedding takes an explicit fuel
and answers `none` when the loop would still be running (or when `fn`
itself raised). -/
def reach_fixpoint {α : Type} (fn : Finset α → Option (Finset α))
    (stop_cond : Option (Finset α → Bool)) :
    Nat → Finset α → Int → Option (Finset α)
  | 0, _, _ => none
  | fuel + 1, x, x_len =>
    if (x.card : Int) = x_len then some x
    else if (match stop_cond with | some sc => sc x | none => false) then some x
    else (fn x).bind (fun x2 => reach_fixpoint fn stop_cond fuel x2 (x.card : Int))

/-- `fixpoints.least_fixpoint` (fixpoints.py lines 43-59) with the
default `start = ∅` made explicit by the caller. -/
def least_fixpoint {α : Type} (fuel : Nat) (fn : Finset α → Option (Finset α))
    (start : Finset α) (stop_cond : Option (Finset α → Bool)) : Option (Finset α) :=
  reach_fixpoint fn stop_cond fuel start (-1)

/-- `fixpoints.greatest_fixpoint` (fixpoints.py lines 62-75). -/
def greatest_fixpoint {α : Type} (fuel : Nat) (fn : Finset α → Option (Finset α))
    (univ : Finset α) (stop_cond : Option (Finset α → Bool)) : Option (Finset α) :=
  reach_fixpoint fn stop_cond fuel univ (-1)

/-- `fixpoints.Union.__call__` (fixpoints.py lines 78-94):
`x.update(fn x)`. -/
def union_fn {α : Type} [DecidableEq α] (fn : Finset α → Option (Finset α)) :
    Finset α → Option (Finset α) :=
  fun x => (fn x).map (fun els => x ∪ els)

/-- `fixpoints.Intersection.__call__` (fixpoints.py lines 97-113):
`x.intersection_update(fn x)`. -/
def intersection_fn {α : Type} [DecidableEq α] (fn : Finset α → Option (Finset α)) :
    Finset α → Option (Finset α) :=
  fun x => (fn x).map (fun els => x ∩ els)

/-- `fixpoints.Difference.__call__` (fixpoints.py lines 116-132):
`x.difference_update(fn x)`. -/
def difference_fn {α : Type} [DecidableEq α] (fn : Finset α → Option (Finset α)) :
    Finset α → Option (Finset α) :=
  fun x => (fn x).map (fun els => x \ els)

/-! ### Equivalence checker (moore.py lines 315-402) -/

/-- The per-pair test of `MooreDetMachine.__not_bisimilar_set` (moore.py
lines 375-400), for a pair whose two outputs are assigned: outputs
differ, or outgoing-symbol sets differ, or some symbol's successor pair
has left the relation.  When the arc sets are equal, both `det_step`
calls succeed, so the inner `match` never takes its defaulted arm. -/
def not_bisimilar_pair (m1 m2 : Machine I O) (r : Finset (Nat × Nat))
    (p : Nat × Nat) : Bool :=
  decide (m1.output_table p.1 ≠ m2.output_table p.2)
  || decide (arcs_from m1 p.1 ≠ arcs_from m2 p.2)
  || decide (∃ a ∈ arcs_from m1 p.1,
        (match m1.trans p.1 a, m2.trans p.2 a with
         | some t1, some t2 => decide ((t1, t2) ∉ r)
         | _, _ => false) = true)

/-- `MooreDetMachine.__not_bisimilar_set` (moore.py lines 362-402).
Every pair of the relation is visited; a pair whose first or second
output is unassigned makes `output_fn`'s assertion fail (`none`),
otherwise the subset of currently non-bisimilar pairs is returned. -/
def not_bisimilar_set (m1 m2 : Machine I O) (r : Finset (Nat × Nat)) :
    Option (Finset (Nat × Nat)) :=
  if ∃ p ∈ r, m1.output_table p.1 = none ∨ m2.output_table p.2 = none then none
  else some (r.filter (fun p => not_bisimilar_pair m1 m2 r p = true))

/-- The `not_initial_states` stop condition of
`MooreDetMachine.is_equivalent` (moore.py lines 343-344): the pair of
initial states has left the relation (`True` when either machine has
no initial state, since a `(None, _)` pair is never in a set of state
pairs). -/
def is_equiv_stop (m1 m2 : Machine I O) : Finset (Nat × Nat) → Bool := fun x =>
  match m1.init_state, m2.init_state with
  | some i1, some i2 => decide ((i1, i2) ∉ x)
  | _, _ => true

/-- The final answer of `MooreDetMachine.is_equivalent` (moore.py
lines 358-360): `not not_initial_states(gfp)`. -/
def is_equiv_result (m1 m2 : Machine I O) (gfp : Finset (Nat × Nat)) : Bool :=
  match m1.init_state, m2.init_state with
  | some i1, some i2 => decide ((i1, i2) ∈ gfp)
  | _, _ => false

/-- `MooreDetMachine.is_equivalent` (moore.py lines 315-360), after the
`machine is self` identity shortcut (see `is_equivalent_method`):
alphabet mismatches answer `False` at once; otherwise a greatest
fixpoint of `Difference(__not_bisimilar_set)` is computed over the
universe of all state pairs, stopping early once the pair of initial
states has left the relation, and the answer is whether that pair is
still present.  The Python loop has no fuel; `universe.card + 2`
rounds always suffice because the relation only shrinks. -/
def is_equivalent (m1 m2 : Machine I O) : Option Bool :=
  if m1.input_symbols.toFinset ≠ m2.input_symbols.toFinset then some false
  else if m1.output_symbols.toFinset ≠ m2.output_symbols.toFinset then some false
  else
    (greatest_fixpoint ((Finset.range m1.n_states ×ˢ Finset.range m2.n_states).card + 2)
        (difference_fn (fun r => not_bisimilar_set m1 m2 r))
        (Finset.range m1.n_states ×ˢ Finset.range m2.n_states)
        (some (is_equiv_stop m1 m2))).map (is_equiv_result m1 m2)

/-- The full method `MooreDetMachine.is_equivalent` including the
`machine is self` check (moore.py lines 330-331).  Object identity is
not observable in a functional embedding, so the caller supplies
whether the two arguments are the same Python object; `M.is_equivalent(M)`
is the call with `same_object = true` on equal machines. -/
def is_equivalent_method (same_object : Bool) (m1 m2 : Machine I O) : Option Bool :=
  if same_object then some true else is_equivalent m1 m2

/-! ### Minimizer (moore.py lines 134-313) -/

/-- Enumeration of a finite set of states in increasing order, used
wherever the code iterates a frozenset of states (Python's iteration
order over a frozenset is arbitrary; the embedding fixes the ascending
one).  Implemented by filtering an initial segment of the naturals so
that it evaluates by kernel reduction. -/
def finset_asc (c : Finset Nat) : List Nat :=
  (List.range (c.fold max 0 id + 1)).filter (fun a => decide (a ∈ c))

/-- The key under which `MooreDetMachine.__apply_splitter` (moore.py
lines 236-263) files a state: `(next_state ∈ test_set, output of the
state)`, both read off `det_step`.  A missing transition makes the
`assert transition is not None` fail; for total machines (the
algorithm's precondition) the defaulted arm is unreachable. -/
def split_key (m : Machine I O) (test_set : Finset Nat) (a : I) (s : Nat) :
    Bool × Option O :=
  match det_step m s a with
  | some p => (decide (p.1 ∈ test_set), some p.2)
  | none => (false, none)

/-- `MooreDetMachine.__apply_splitter` (moore.py lines 236-263): the
partition of `group` into its maximal subsets of states sharing a
`split_key`; states are enumerated in increasing order and the list of
(distinct) classes is deduplicated, so its length is the number of
distinct keys, as in Python. -/
def apply_splitter (m : Machine I O) (group : Finset Nat) (a : I)
    (test_set : Finset Nat) : List (Finset Nat) :=
  ((finset_asc group).map
      (fun s => group.filter (fun t => split_key m test_set a t = split_key m test_set a s))).dedup

/-- `MooreDetMachine.__output_partitions` (moore.py lines 221-234):
group the states by the value of their (assigned) output.  An
unassigned output makes `output_fn`'s assertion fail in Python; the
embedding files such states by the `none` entry (unreachable under the
all-outputs-assigned precondition of every claim using this). -/
def output_partitions (m : Machine I O) : List (Finset Nat) :=
  ((List.range m.n_states).map
      (fun s => (Finset.range m.n_states).filter
        (fun t => m.output_table t = m.output_table s))).dedup

/-- A splitter: a `(test class, symbol)` pair (moore.py line 19). -/
abbrev Splitter (I : Type) := Finset Nat × I

/-- `set.add` on the waiting set of splitters. -/
def winsert (sp : Splitter I) (l : List (Splitter I)) : List (Splitter I) :=
  if sp ∈ l then l else sp :: l

/-- `set.discard` on the waiting set of splitters. -/
def werase (sp : Splitter I) (l : List (Splitter I)) : List (Splitter I) :=
  l.filter (fun y => decide (y ≠ sp))

/-- The waiting-set update of `_hopcroft_minimize` when a group was
split (moore.py lines 209-214): for every alphabet symbol, discard the
splitter keyed on the old group and add one per new sub-group. -/
def waiting_update (m : Machine I O) (group : Finset Nat)
    (parts : List (Finset Nat)) (w : List (Splitter I)) : List (Splitter I) :=
  m.input_symbols.foldl
    (fun acc a => parts.foldl (fun acc2 sub => winsert (sub, a) acc2)
      (werase (group, a) acc))
    w

/-- One pass of the `for group in partition` body of
`_hopcroft_minimize` (moore.py lines 195-214), accumulating the new
partition and updating the waiting set. -/
def hopcroft_iter (m : Machine I O) (test_set : Finset Nat) (a0 : I) :
    List (Finset Nat) → List (Finset Nat) × List (Splitter I) →
    List (Finset Nat) × List (Splitter I)
  | [], acc => acc
  | g :: gs, acc =>
    let parts := apply_splitter m g a0 test_set
    let np := parts.foldl (fun l c => l.insert c) acc.1
    if parts.length = 1 then hopcroft_iter m test_set a0 gs (np, acc.2)
    else hopcroft_iter m test_set a0 gs (np, waiting_update m g parts acc.2)

/-- The `while len(waiting_set) > 0` loop of `_hopcroft_minimize`
(moore.py lines 190-217); `set.pop` takes the head of the waiting
list.  The Python loop has no fuel; `hopcroft_fuel` below always
suffices (proved for the main theorem). -/
def hopcroft_loop (m : Machine I O) :
    Nat → List (Finset Nat) → List (Splitter I) → Option (List (Finset Nat))
  | 0, _, _ => none
  | _ + 1, p, [] => some p
  | fuel + 1, p, spl :: ws =>
    let step := hopcroft_iter m spl.1 spl.2 p ([], ws)
    hopcroft_loop m fuel step.1 step.2

/-- The initial waiting set of `_hopcroft_minimize` (moore.py lines
184-187): one splitter per (group, symbol) pair. -/
def initial_waiting (m : Machine I O) (p : List (Finset Nat)) : List (Splitter I) :=
  m.input_symbols.foldl (fun acc a => p.foldl (fun acc2 g => winsert (g, a) acc2) acc) []

/-- A fuel bound under which `hopcroft_loop` provably terminates for
every machine satisfying `total_machine` (the loop measure
`(n_states - |partition|) * (n_states * |alphabet| + 1) + |waiting|`
strictly decreases). -/
def hopcroft_fuel (m : Machine I O) : Nat :=
  (m.n_states + 2) * (m.n_states * m.input_symbols.length + 2)

/-- The representative `next(iter(group))` used by
`__from_partitions` (moore.py lines 288, 300): one arbitrary member of
the class; the embedding enumerates classes in increasing order, so it
is the least element. -/
def class_rep (c : Finset Nat) : Nat := (finset_asc c).headI

/-- The `for j, next_group in enumerate(partition_list): if ... break`
search of `__from_partitions` (moore.py lines 306-311): index of the
first class containing a state. -/
def find_class_idx (s : Nat) : List (Finset Nat) → Option Nat
  | [] => none
  | c :: rest => if s ∈ c then some 0 else (find_class_idx s rest).map (fun j => j + 1)

/-- Index of the last class containing a state: the initial-state loop
of `__from_partitions` (moore.py lines 293-296) calls `set_initial`
once per matching class, and each call replaces the previous one. -/
def find_class_idx_last (s : Nat) (p : List (Finset Nat)) : Option Nat :=
  (find_class_idx s p.reverse).map (fun j => p.length - 1 - j)

/-- The transition table built by `__from_partitions` (moore.py lines
298-311): for class `i` and each alphabet symbol, step the
representative and link to the first class containing the destination
(`break`); if no class contains it, no transition is added. -/
def fp_trans (m : Machine I O) (p : List (Finset Nat)) (i : Nat) (a : I) : Option Nat :=
  if i < p.length ∧ a ∈ m.input_symbols then
    (m.trans (class_rep (p.getD i ∅)) a).bind (fun t => find_class_idx t p)
  else none

/-- The initial state chosen by `__from_partitions` (moore.py lines
293-296): `set_initial` is called once per class containing the old
initial state, and each call replaces the previous one, so the last
matching class index wins (for a genuine partition there is at most
one). -/
def fp_init_idx (m : Machine I O) (p : List (Finset Nat)) : Option Nat :=
  match m.init_state with
  | some s0 => find_class_idx_last s0 p
  | none => none

/-- `MooreDetMachine.__from_partitions` (moore.py lines 265-313): a
fresh machine with one state per class (in list order), the class
representative's output, transitions per `fp_trans`, and the initial
state per `fp_init_idx`.  Its alphabets are exactly the symbols/outputs
inserted by the `new_state_output`/`new_transition` calls. -/
def from_partitions (m : Machine I O) (p : List (Finset Nat)) : Machine I O :=
  { n_states := p.length
    output_table := fun i =>
      if i < p.length then m.output_table (class_rep (p.getD i ∅)) else none
    trans := fp_trans m p
    input_symbols :=
      ((List.range p.length).flatMap
        (fun i => m.input_symbols.filter (fun a => (fp_trans m p i a).isSome))).dedup
    output_symbols := (p.map (fun c => m.output_table (class_rep c))).reduceOption.dedup
    init_states := (fp_init_idx m p).toList
    init_state := fp_init_idx m p }

/-- `MooreDetMachine._hopcroft_minimize` (moore.py lines 175-219);
`none` would mean the loop still running after `hopcroft_fuel` rounds
(never the case for total machines). -/
def hopcroft_minimize (m : Machine I O) : Option (Machine I O) :=
  let p0 := output_partitions m
  (hopcroft_loop m (hopcroft_fuel m) p0 (initial_waiting m p0)).map (from_partitions m)

/-- `MooreDetMachine.minimize` (moore.py lines 134-136). -/
def minimize (m : Machine I O) : Option (Machine I O) := hopcroft_minimize m

/-! ### `_moore_minimize` (moore.py lines 138-173)

In the Python source, `partition = new_partition` (line 171, inside the
`for symbol` loop) makes the two variables aliases of one and the same
set object.  Consequently (a) after the first symbol the `for group in
partition` / `for test_group in partition` loops iterate the very set
that `new_partition.add(...)` is mutating — CPython raises
`RuntimeError: Set changed size during iteration` at the iterator's
next step as soon as a genuinely new element is added — and (b) once
the `for symbol` loop finishes, the `while len(new_partition) !=
len(partition)` test compares one object's size with itself and always
exits, so the body runs at most once; if the alphabet is empty the
assignment never executes and the `while` test never changes, so the
loop never exits.  The embedding returns `none` for both raising and
divergence. -/

/-- The innermost block of `_moore_minimize` (moore.py lines 158-169)
for one `(group, test_group)` pair: add every nonempty
`group & sub_group` to the accumulating new partition. -/
def moore_cell (m : Machine I O) (a : I) (g t : Finset Nat)
    (acc : List (Finset Nat)) : List (Finset Nat) :=
  (apply_splitter m g a t).foldl
    (fun l sub => if 0 < (g ∩ sub).card then l.insert (g ∩ sub) else l) acc

/-- One `for symbol` round of `_moore_minimize`: both group loops run
over `iter0` (the set object `partition` refers to at that moment)
while additions go to the accumulator. -/
def moore_pass (m : Machine I O) (a : I) (iter0 : List (Finset Nat))
    (acc0 : List (Finset Nat)) : List (Finset Nat) :=
  iter0.foldl (fun acc g => iter0.foldl (fun acc2 t => moore_cell m a g t acc2) acc) acc0

/-- A `for symbol` round after `partition` and `new_partition` have
become aliases: the group loops iterate the set being updated, so any
genuinely new element raises `RuntimeError` (`none`); when nothing new
is added the set is unchanged. -/
def moore_pass_aliased (m : Machine I O) (a : I) (cur : List (Finset Nat)) :
    Option (List (Finset Nat)) :=
  let res := moore_pass m a cur cur
  if res.length = cur.length then some res else none

/-- `MooreDetMachine._moore_minimize` (moore.py lines 138-173), with
the aliasing of `partition`/`new_partition` made explicit as described
above. -/
def moore_minimize (m : Machine I O) : Option (Machine I O) :=
  let p0 := output_partitions m
  if p0.length = 0 then some (from_partitions m p0)
  else
    match m.input_symbols with
    | [] => none
    | a :: rest =>
      (rest.foldlM (fun cur sym => moore_pass_aliased m sym cur)
          (moore_pass m a p0 [])).map (from_partitions m)

/-! ### `complete_sink` -/

/-- Modelled from the spec: `complete_sink` is not present under
`src/minimoore` (only its tests, `TestMooreDetMachine.test_complete_sink`
in src/tests/test_moore.py, and its caller in
src/scripts/minimize_numpy.py are).  Spec §4.4: "if the machine is
already total, this is a no-op (returns a sentinel indicating 'nothing
to do').  Otherwise it creates exactly one new absorbing state with
output `default_output`, self-looping on every alphabet symbol, and
redirects every missing (state, symbol) edge to that sink."  The
sentinel is the `Option Nat` component (`none` = nothing to do, as the
tests' `assert m.complete_sink("eps") is None` show). -/
def complete_sink (m : Machine I O) (default_output : O) : Option Nat × Machine I O :=
  if is_complete m then (none, m)
  else
    let sink := m.n_states
    (some sink,
     { n_states := m.n_states + 1
       output_table := fun s => if s = sink then some default_output else m.output_table s
       trans := fun s a =>
         if s = sink then (if a ∈ m.input_symbols then some sink else none)
         else
           match m.trans s a with
           | some t => some t
           | none => if s < m.n_states ∧ a ∈ m.input_symbols then some sink else none
       input_symbols := m.input_symbols
       output_symbols := m.output_symbols.insert default_output
       init_states := m.init_states
       init_state := m.init_state })

/-! ### Well-formedness of a machine for the minimization /
equivalence algorithms -/

/-- The precondition of `minimize` / `_moore_minimize` as the claims
state it, plus structural facts every machine built through the
Python construction API satisfies: every state has a transition for
every symbol of the derived input alphabet, with a valid destination;
every state has an assigned output; an initial state is set and valid;
the derived-alphabet set has no duplicate entries (it is a Python
`set`). -/
def total_machine (m : Machine I O) : Bool :=
  (List.range m.n_states).all
    (fun s =>
      m.input_symbols.all
        (fun a =>
          match m.trans s a with
          | some t => decide (t < m.n_states)
          | none => false)
      && (m.output_table s).isSome)
  && decide m.input_symbols.Nodup
  && (match m.init_state with
      | some s0 => decide (s0 < m.n_states)
      | none => false)

/-! ### Concrete machines (built through the construction API),
with output symbols as naturals: "a" = 0, "b" = 1. -/

/-- The `maker1` fixture of src/tests/test_moore.py (also the concrete
3-state scenario of spec §8): outputs a, a, b; transitions 0→1/0,
0→0/1, 1→2/0, 1→1/1, 2→0/0, 2→0/1; initial state 0. -/
def maker1_machine : Machine Nat Nat :=
  after_set_initial
    (new_transition (new_transition (new_transition (new_transition (new_transition
      (new_transition
        (new_state_output (new_state_output (new_state_output empty_machine 0).1 0).1 1).1
        0 0 1) 0 1 0) 1 0 2) 1 1 1) 2 0 0) 2 1 0)
    0

/-- A total 4-state chain over the single input symbol 0: outputs
a, a, a, b; transitions 0→1, 1→2, 2→3, 3→3; initial state 0.  Its
minimal equivalent machine has 4 states (the states differ in their
distance to the b-output). -/
def chain4 : Machine Nat Nat :=
  after_set_initial
    (new_transition (new_transition (new_transition (new_transition
      (new_state_output (new_state_output (new_state_output
        (new_state_output empty_machine 0).1 0).1 0).1 1).1
      0 0 1) 1 0 2) 2 0 3) 3 0 3)
    0

/-- Two states with outputs a, b; transitions 0→1 and 1→0 on symbol 0;
initial state 0. -/
def swap_machine_a : Machine Nat Nat :=
  after_set_initial
    (new_transition (new_transition
      (new_state_output (new_state_output empty_machine 0).1 1).1
      0 0 1) 1 0 0)
    0

/-- Like `swap_machine_a` but with the two outputs permuted (b, a). -/
def swap_machine_b : Machine Nat Nat :=
  after_set_initial
    (new_transition (new_transition
      (new_state_output (new_state_output empty_machine 1).1 0).1
      0 0 1) 1 0 0)
    0

/-- One state whose output is first assigned a = 0 and then overwritten
with b = 1; a self-loop on symbol 0; initial state 0.  Its derived
output alphabet is {0, 1} although no state outputs 0 anymore. -/
def history_machine : Machine Nat Nat :=
  after_set_initial
    (new_transition (set_state_output (new_state_output empty_machine 0).1 0 1) 0 0 0)
    0

/-- One state with output b = 1 assigned once; a self-loop on symbol 0;
initial state 0.  Computes the same word function as
`history_machine`, but its derived output alphabet is {1}. -/
def clean_machine : Machine Nat Nat :=
  after_set_initial
    (new_transition (new_state_output empty_machine 1).1 0 0 0)
    0

/-- The machine state after a sequence of `set_initial` calls. -/
def apply_initials (m : Machine I O) (ss : List Nat) : Machine I O :=
  ss.foldl after_set_initial m

/-! ### Verification-layer predicates for the minimizer proof -/

/-- `p` is a partition of the state set `{0, …, n-1}`: classes are
nonempty, within range, jointly exhaustive, pairwise disjoint (as
values) and listed without repetition. -/
def IsPart (n : Nat) (p : List (Finset Nat)) : Prop :=
  (∀ c ∈ p, c.Nonempty)
  ∧ (∀ c ∈ p, ∀ s ∈ c, s < n)
  ∧ (∀ s, s < n → ∃ c ∈ p, s ∈ c)
  ∧ (∀ c ∈ p, ∀ d ∈ p, c ≠ d → Disjoint c d)
  ∧ p.Nodup

/-- Partition `p` is stable under the splitter `(tset, a)`: the
splitter key is constant on every class. -/
def KeyStab (m : Machine I O) (p : List (Finset Nat)) (tset : Finset Nat) (a : I) : Prop :=
  ∀ c ∈ p, ∀ s ∈ c, ∀ t ∈ c, split_key m tset a s = split_key m tset a t

/-- The `_hopcroft_minimize` loop invariant: the partition is genuine,
the waiting set is duplicate-free, every waiting splitter is keyed on a
current class and an alphabet symbol, and the partition is stable under
every (class, symbol) splitter that is *not* waiting. -/
def HInv (m : Machine I O) (p : List (Finset Nat)) (w : List (Splitter I)) : Prop :=
  IsPart m.n_states p
  ∧ w.Nodup
  ∧ (∀ sp ∈ w, sp.1 ∈ p ∧ sp.2 ∈ m.input_symbols)
  ∧ (∀ b ∈ p, ∀ a ∈ m.input_symbols, (b, a) ∉ w → KeyStab m p b a)

/-- Termination measure of the `_hopcroft_minimize` loop: splitting
strictly increases the class count (bounded by `n_states`), a
no-split round strictly shrinks the waiting list (bounded by
`n_states * |alphabet|`). -/
def hmeasure (m : Machine I O) (p : List (Finset Nat)) (w : List (Splitter I)) : Nat :=
  (m.n_states - p.length) * (m.n_states * m.input_symbols.length + 1) + w.length

/-! ## Theorems -/

/-! ### Basic facts about `set_initial` -/

theorem after_set_initial_of_valid (m : Machine I O) (s : Nat) (h : s < m.n_states) :
    after_set_initial m s = { m with init_states := [s], init_state := some s } := by
  simp [after_set_initial, set_initial, h]

theorem after_set_initial_n_states (m : Machine I O) (s : Nat) :
    (after_set_initial m s).n_states = m.n_states := by
  unfold after_set_initial set_initial
  by_cases h : s < m.n_states <;> simp [h]

/-- C7: after any sequence of `set_initial` calls on valid ids, exactly
one initial state is designated, namely the most recent argument: the
designation replaces, it does not accumulate. -/
theorem c7_set_initial_replaces (m : Machine I O) (ss : List Nat) (hne : ss ≠ [])
    (hvalid : ∀ s ∈ ss, s < m.n_states) :
    (apply_initials m ss).init_state = some (ss.getLast hne)
    ∧ (apply_initials m ss).init_states = [ss.getLast hne] := by
  induction ss generalizing m with
  | nil => exact absurd rfl hne
  | cons a l ih =>
    have ha : a < m.n_states := hvalid a (List.mem_cons_self a l)
    cases l with
    | nil =>
      simp [apply_initials, after_set_initial_of_valid m a ha]
    | cons b l2 =>
      have hstep : apply_initials m (a :: b :: l2) =
          apply_initials (after_set_initial m a) (b :: l2) := rfl
      have hvalid2 : ∀ s ∈ b :: l2, s < (after_set_initial m a).n_states := by
        intro s hs
        rw [after_set_initial_n_states]
        exact hvalid s (List.mem_cons_of_mem a hs)
      have := ih (after_set_initial m a) (by simp) hvalid2
      rw [hstep]
      simpa [List.getLast_cons] using this

/-- C7 witness: three valid `set_initial` calls on the two-state
machine leave exactly the last argument designated. -/
theorem c7_witness :
    (∀ s ∈ [1, 0, 1], s < swap_machine_a.n_states)
    ∧ (apply_initials swap_machine_a [1, 0, 1]).init_state = some 1
    ∧ (apply_initials swap_machine_a [1, 0, 1]).init_states = [1] := by
  refine ⟨by decide, ?_⟩
  have h := c7_set_initial_replaces swap_machine_a [1, 0, 1] (by decide) (by decide)
  simpa using h

/-- C9: a `set_initial` call with an invalid id on a machine that
already had a designated initial state raises, but only after clearing
`init_states`; `init_state` still holds the previous designation. -/
theorem c9_set_initial_not_atomic (m : Machine I O) (s : Nat)
    (hs : ¬ s < m.n_states) (t : Nat) (ht : m.init_state = some t) :
    ∃ m2, set_initial m s = .error m2
      ∧ m2.init_states = [] ∧ m2.init_state = some t := by
  refine ⟨{ m with init_states := ([] : List Nat) }, ?_, rfl, ht⟩
  simp [set_initial, hs]

/-- C9 witness: `set_initial 5` on the two-state machine (initial
state 0) raises and leaves `init_states = ∅`, `init_state = 0`. -/
theorem c9_witness :
    ¬ (5 : Nat) < swap_machine_a.n_states
    ∧ ∃ m2, set_initial swap_machine_a 5 = .error m2
        ∧ m2.init_states = [] ∧ m2.init_state = some 0 := by
  exact ⟨by decide,
    c9_set_initial_not_atomic swap_machine_a 5 (by decide) 0 (by decide)⟩

/-- C8: structural equality (`__eq__`) does not compare the per-state
output table: the two machines below agree on state count,
initial-state set, alphabets and transition set, and differ only in
which of the two states outputs a and which outputs b; they compare
equal, yet already the length-one word 0 is translated differently. -/
theorem c8_structural_eq_ignores_outputs :
    feq swap_machine_a swap_machine_b = true
    ∧ swap_machine_a.output_table 0 ≠ swap_machine_b.output_table 0
    ∧ process_word swap_machine_a [0] true ≠ process_word swap_machine_b [0] true := by
  refine ⟨by decide, by decide, by decide⟩

/-- C6: `is_equivalent` between (distinct) machines whose derived input
alphabets differ, or whose derived output alphabets differ, returns
`False` without raising. -/
theorem c6_incompatible_machines_false (m1 m2 : Machine I O)
    (h : m1.input_symbols.toFinset ≠ m2.input_symbols.toFinset
       ∨ m1.output_symbols.toFinset ≠ m2.output_symbols.toFinset) :
    is_equivalent_method false m1 m2 = some false := by
  unfold is_equivalent_method is_equivalent
  rcases h with h | h
  · simp [h]
  · by_cases h1 : m1.input_symbols.toFinset ≠ m2.input_symbols.toFinset
    · simp [h1]
    · simp [h1, h]

/-- C6 witness: the 3-state machine over alphabet {0, 1} against the
4-state chain over alphabet {0}. -/
theorem c6_witness :
    maker1_machine.input_symbols.toFinset ≠ chain4.input_symbols.toFinset
    ∧ is_equivalent_method false maker1_machine chain4 = some false := by
  exact ⟨by decide,
    c6_incompatible_machines_false maker1_machine chain4 (Or.inl (by decide))⟩

/-- C2 (code bug): on the total 4-state chain, the production
minimizer gives the correct 4-state machine, while `_moore_minimize`
— whose `while` test became vacuous through the
`partition = new_partition` aliasing, so that it performs a single
pass — returns a 3-state machine that already mistranslates the word
0000 (it answers aaaa where the input machine answers aaab). -/
theorem c2_moore_minimize_disagrees_with_hopcroft :
    total_machine chain4 = true
    ∧ (minimize chain4).map Machine.n_states = some 4
    ∧ (moore_minimize chain4).map Machine.n_states = some 3
    ∧ (moore_minimize chain4).bind (fun mm => process_word mm [0, 0, 0, 0] true)
        = some [0, 0, 0, 0]
    ∧ process_word chain4 [0, 0, 0, 0] true = some [0, 0, 0, 1] := by
  refine ⟨by decide, by decide, by decide, by decide, by decide⟩

/-! ### C3: complete_sink -/

/-- The machine returned by `complete_sink` is always complete: for an
already-complete machine it is the machine itself, otherwise every
state (the sink included) has an arc for every alphabet symbol. -/
theorem complete_sink_is_complete (m : Machine I O) (d : O) :
    is_complete (complete_sink m d).2 = true := by
  by_cases hc : is_complete m
  · simp [complete_sink, hc]
  · unfold complete_sink
    rw [if_neg hc]
    simp only
    unfold is_complete
    rw [List.all_eq_true]
    intro s hs
    simp only [List.mem_range] at hs
    have harcs : ∀ a ∈ m.input_symbols.toFinset,
        ((fun s a =>
          if s = m.n_states then (if a ∈ m.input_symbols then some m.n_states else none)
          else
            match m.trans s a with
            | some t => some t
            | none => if s < m.n_states ∧ a ∈ m.input_symbols then some m.n_states
                      else none) s a).isSome = true := by
      intro a ha
      rw [List.mem_toFinset] at ha
      by_cases hsink : s = m.n_states
      · simp [hsink, ha]
      · have hlt : s < m.n_states := by omega
        cases htr : m.trans s a with
        | some t => simp [hsink, htr]
        | none => simp [hsink, htr, hlt, ha]
    have : arcs_from
        { n_states := m.n_states + 1
          output_table := fun s => if s = m.n_states then some d else m.output_table s
          trans := fun s a =>
            if s = m.n_states then (if a ∈ m.input_symbols then some m.n_states else none)
            else
              match m.trans s a with
              | some t => some t
              | none => if s < m.n_states ∧ a ∈ m.input_symbols then some m.n_states
                        else none
          input_symbols := m.input_symbols
          output_symbols := m.output_symbols.insert d
          init_states := m.init_states
          init_state := m.init_state } s = m.input_symbols.toFinset := by
      unfold arcs_from
      exact Finset.filter_true_of_mem (by intro a ha; exact harcs a ha)
    simp [this]

/-- C3: `complete_sink` on an already-total machine changes nothing and
returns the nothing-to-do sentinel, and for every machine the second
application with the same default is a no-op (the machine produced by
the first call is complete). -/
theorem c3_complete_sink_idempotent (m : Machine I O) (d : O) :
    (is_complete m = true → complete_sink m d = (none, m))
    ∧ complete_sink (complete_sink m d).2 d = (none, (complete_sink m d).2) := by
  have h1 : ∀ (m2 : Machine I O), is_complete m2 = true → complete_sink m2 d = (none, m2) := by
    intro m2 h
    simp [complete_sink, h]
  exact ⟨h1 m, h1 _ (complete_sink_is_complete m d)⟩

/-- C3 witness: the complete 3-state machine is untouched by
`complete_sink`. -/
theorem c3_witness :
    is_complete maker1_machine = true
    ∧ complete_sink maker1_machine 0 = (none, maker1_machine) :=
  ⟨by decide, (c3_complete_sink_idempotent maker1_machine 0).1 (by decide)⟩

/-! ### C10: derived alphabets only grow -/

theorem history_machine_pw (k : Nat) :
    process_word_from history_machine 0 (List.replicate k 0) true
      = some (List.replicate k 1, 0) := by
  induction k with
  | zero => rfl
  | succ k ih =>
    have hstep : det_step history_machine 0 0 = some (0, 1) := by decide
    rw [List.replicate_succ]
    simp [process_word_from, hstep, ih, List.replicate_succ]

theorem clean_machine_pw (k : Nat) :
    process_word_from clean_machine 0 (List.replicate k 0) true
      = some (List.replicate k 1, 0) := by
  induction k with
  | zero => rfl
  | succ k ih =>
    have hstep : det_step clean_machine 0 0 = some (0, 1) := by decide
    rw [List.replicate_succ]
    simp [process_word_from, hstep, ih, List.replicate_succ]

/-- C10: no construction operation removes a symbol from the derived
input or output alphabet (they are only ever added to); in particular
overwriting a state's output keeps the overwritten symbol in the
output alphabet, so the two one-state machines `history_machine`
(output a overwritten by b) and `clean_machine` (output b directly)
translate every word over their common alphabet identically yet have
different derived output alphabets, and `is_equivalent` answers
`False` on them. -/
theorem c10_alphabets_only_grow :
    (∀ (m : Machine I O),
        m.input_symbols ⊆ (new_state m).1.input_symbols
        ∧ m.output_symbols ⊆ (new_state m).1.output_symbols)
    ∧ (∀ (m : Machine I O) (s : Nat) (o : O),
        m.input_symbols ⊆ (set_state_output m s o).input_symbols
        ∧ m.output_symbols ⊆ (set_state_output m s o).output_symbols)
    ∧ (∀ (m : Machine I O) (o : O),
        m.input_symbols ⊆ (new_state_output m o).1.input_symbols
        ∧ m.output_symbols ⊆ (new_state_output m o).1.output_symbols)
    ∧ (∀ (m : Machine I O) (s1 : Nat) (a : I) (s2 : Nat),
        m.input_symbols ⊆ (new_transition m s1 a s2).input_symbols
        ∧ m.output_symbols ⊆ (new_transition m s1 a s2).output_symbols)
    ∧ (∀ (m : Machine I O) (s : Nat),
        m.input_symbols ⊆ (after_set_initial m s).input_symbols
        ∧ m.output_symbols ⊆ (after_set_initial m s).output_symbols)
    ∧ (∀ (m : Machine I O) (d : O),
        m.input_symbols ⊆ (complete_sink m d).2.input_symbols
        ∧ m.output_symbols ⊆ (complete_sink m d).2.output_symbols)
    ∧ (∀ (m : Machine I O) (s : Nat) (o1 o2 : O),
        o1 ∈ (set_state_output (set_state_output m s o1) s o2).output_symbols)
    ∧ (∀ k : Nat,
        process_word history_machine (List.replicate k 0) true
          = process_word clean_machine (List.replicate k 0) true)
    ∧ history_machine.output_symbols.toFinset ≠ clean_machine.output_symbols.toFinset
    ∧ is_equivalent history_machine clean_machine = some false := by
  have hins : ∀ {β : Type} [DecidableEq β] (x : β) (l : List β), l ⊆ l.insert x := by
    intro β inst x l y hy
    rw [List.mem_insert_iff]
    exact Or.inr hy
  refine ⟨?_, ?_, ?_, ?_, ?_, ?_, ?_, ?_, by decide, by decide⟩
  · exact fun m => ⟨fun y hy => hy, fun y hy => hy⟩
  · exact fun m s o => ⟨fun y hy => hy, hins o _⟩
  · exact fun m o => ⟨fun y hy => hy, hins o _⟩
  · exact fun m s1 a s2 => ⟨hins a _, fun y hy => hy⟩
  · intro m s
    unfold after_set_initial set_initial
    by_cases h : s < m.n_states <;> simp [h]
  · intro m d
    unfold complete_sink
    by_cases h : is_complete m
    · simp [h]
    · simp [h]
      exact hins d _
  · intro m s o1 o2
    simp [set_state_output, List.mem_insert_iff]
  · intro k
    have h1 : history_machine.init_state = some 0 := by decide
    have h2 : clean_machine.init_state = some 0 := by decide
    simp [process_word, h1, h2, history_machine_pw, clean_machine_pw]

/-! ### C5: least_fixpoint on a growing function -/

/-- Core loop analysis: once the iteration has taken a first step
`y → f y`, a growing `f` bounded by the finite universe `u` terminates
within `u.card + 1 - y.card` further rounds, on a set of the form
`f^[k] y` that `f` fixes. -/
theorem reach_fixpoint_growing_aux {α : Type} (f : Finset α → Finset α) (u : Finset α)
    (hgrow : ∀ x, x ⊆ f x) (hbound : ∀ x, x ⊆ u → f x ⊆ u) :
    ∀ (fuel : Nat) (y : Finset α), y ⊆ u → u.card + 1 ≤ fuel + y.card →
      ∃ r k, reach_fixpoint (fun x => some (f x)) none fuel (f y) (y.card : Int) = some r
        ∧ r = f^[k] y ∧ f r = r := by
  intro fuel
  induction fuel with
  | zero =>
    intro y hy hle
    have := Finset.card_le_card hy
    omega
  | succ fuel ih =>
    intro y hy hle
    by_cases hcard : (f y).card = y.card
    · have hfix : f y = y :=
        (Finset.eq_of_subset_of_card_le (hgrow y) (le_of_eq hcard)).symm
      have heq : ((f y).card : Int) = (y.card : Int) := by exact_mod_cast hcard
      refine ⟨f y, 1, ?_, by simp, ?_⟩
      · simp [reach_fixpoint, heq]
      · rw [hfix]
        exact hfix
    · have hlt : y.card < (f y).card :=
        lt_of_le_of_ne (Finset.card_le_card (hgrow y)) (Ne.symm hcard)
      have hfyu : f y ⊆ u := hbound y hy
      have hne : ((f y).card : Int) ≠ (y.card : Int) := by exact_mod_cast hcard
      have step : reach_fixpoint (fun x => some (f x)) none (fuel + 1) (f y) (y.card : Int)
          = reach_fixpoint (fun x => some (f x)) none fuel (f (f y)) ((f y).card : Int) := by
        simp [reach_fixpoint, hne]
      obtain ⟨r, k, hr, hrk, hfix⟩ := ih (f y) hfyu (by omega)
      refine ⟨r, k + 1, by rw [step]; exact hr, ?_, hfix⟩
      rw [Function.iterate_succ_apply]
      exact hrk

/-- C5: for `f` that only ever grows its argument inside a finite
universe, `least_fixpoint` with no stop condition terminates (within
the stated fuel) and the returned set `r` is a genuine fixpoint
(`f r = r`, i.e. size-stability implies membership stability); `r` is
reached by iterating `f` from `start`, and it is the only — hence the
least — fixpoint of `f` on that iteration chain. -/
theorem c5_least_fixpoint_growing {α : Type} (f : Finset α → Finset α)
    (u start : Finset α) (hgrow : ∀ x, x ⊆ f x) (hbound : ∀ x, x ⊆ u → f x ⊆ u)
    (hstart : start ⊆ u) :
    ∃ r, least_fixpoint (u.card + 2) (fun x => some (f x)) start none = some r
      ∧ f r = r
      ∧ (∃ k, r = f^[k] start)
      ∧ (∀ j, f (f^[j] start) = f^[j] start → f^[j] start = r) := by
  have hm1 : (start.card : Int) ≠ (-1 : Int) := by
    have := Int.natCast_nonneg start.card
    omega
  have hfirst : least_fixpoint (u.card + 2) (fun x => some (f x)) start none
      = reach_fixpoint (fun x => some (f x)) none (u.card + 1) (f start) (start.card : Int) := by
    simp [least_fixpoint, reach_fixpoint, hm1]
  obtain ⟨r, k, hr, hrk, hfix⟩ :=
    reach_fixpoint_growing_aux f u hgrow hbound (u.card + 1) start hstart (by omega)
  refine ⟨r, by rw [hfirst]; exact hr, hfix, ⟨k, hrk⟩, ?_⟩
  intro j hj
  rcases le_or_lt j k with hle | hlt
  · have hsplit : f^[k] start = f^[k - j] (f^[j] start) := by
      rw [← Function.iterate_add_apply]
      congr 1
      omega
    rw [hrk, hsplit, Function.iterate_fixed hj]
  · have hrfix : f (f^[k] start) = f^[k] start := by
      rw [← hrk]
      exact hfix
    have hsplit : f^[j] start = f^[j - k] (f^[k] start) := by
      rw [← Function.iterate_add_apply]
      congr 1
      omega
    rw [hsplit, Function.iterate_fixed hrfix, hrk]

/-- C5 witness: `f = insert 0` inside the universe `{0}`, from the
empty start. -/
theorem c5_witness :
    ∃ r, least_fixpoint (({0} : Finset Nat).card + 2)
        (fun x => some (insert 0 x)) (∅ : Finset Nat) none = some r
      ∧ insert 0 r = r
      ∧ (∃ k, r = (fun x => insert 0 x)^[k] (∅ : Finset Nat))
      ∧ (∀ j, insert 0 ((fun x => insert 0 x)^[j] (∅ : Finset Nat))
            = (fun x => insert 0 x)^[j] (∅ : Finset Nat) →
          (fun x => insert 0 x)^[j] (∅ : Finset Nat) = r) :=
  c5_least_fixpoint_growing (fun x => insert 0 x) {0} ∅
    (fun x => Finset.subset_insert 0 x)
    (fun _ hx => Finset.insert_subset_iff.mpr ⟨Finset.mem_singleton_self 0, hx⟩)
    (Finset.empty_subset _)

/-! ### C4: reflexivity and symmetry of is_equivalent -/

theorem mem_image_swap {r : Finset (Nat × Nat)} {p : Nat × Nat} :
    p ∈ r.image Prod.swap ↔ p.swap ∈ r := by
  constructor
  · intro h
    obtain ⟨q, hq, hqe⟩ := Finset.mem_image.mp h
    rw [← hqe, Prod.swap_swap]
    exact hq
  · intro h
    exact Finset.mem_image.mpr ⟨p.swap, h, Prod.swap_swap p⟩

theorem pair_mem_image_swap {r : Finset (Nat × Nat)} {t1 t2 : Nat} :
    (t2, t1) ∈ r.image Prod.swap ↔ (t1, t2) ∈ r := by
  rw [mem_image_swap, Prod.swap_prod_mk]

theorem not_bisimilar_pair_swap (m1 m2 : Machine I O) (r : Finset (Nat × Nat))
    (p : Nat × Nat) :
    not_bisimilar_pair m2 m1 (r.image Prod.swap) p.swap
      = not_bisimilar_pair m1 m2 r p := by
  rw [Bool.eq_iff_iff]
  simp only [not_bisimilar_pair, Bool.or_eq_true, decide_eq_true_eq, Prod.fst_swap,
    Prod.snd_swap]
  by_cases harc : arcs_from m1 p.1 = arcs_from m2 p.2
  · refine or_congr (or_congr ne_comm ne_comm) ?_
    rw [harc]
    apply exists_congr
    intro a
    apply and_congr_right
    intro _
    cases htr1 : m1.trans p.1 a with
    | none => cases htr2 : m2.trans p.2 a <;> simp
    | some t1 =>
      cases htr2 : m2.trans p.2 a with
      | none => simp
      | some t2 =>
        show (decide ((t2, t1) ∉ r.image Prod.swap) = true)
            ↔ (decide ((t1, t2) ∉ r) = true)
        simp only [decide_eq_true_eq]
        exact not_congr pair_mem_image_swap
  · exact iff_of_true (Or.inl (Or.inr (fun h => harc h.symm))) (Or.inl (Or.inr harc))

theorem not_bisimilar_set_swap (m1 m2 : Machine I O) (r : Finset (Nat × Nat)) :
    not_bisimilar_set m2 m1 (r.image Prod.swap)
      = (not_bisimilar_set m1 m2 r).map (Finset.image Prod.swap) := by
  unfold not_bisimilar_set
  by_cases hcr : ∃ p ∈ r, m1.output_table p.1 = none ∨ m2.output_table p.2 = none
  · have hcr2 : ∃ p ∈ r.image Prod.swap,
        m2.output_table p.1 = none ∨ m1.output_table p.2 = none := by
      obtain ⟨p, hp, hor⟩ := hcr
      refine ⟨p.swap, Finset.mem_image_of_mem _ hp, ?_⟩
      simpa [Prod.fst_swap, Prod.snd_swap] using hor.symm
    rw [if_pos hcr, if_pos hcr2]
    rfl
  · have hcr2 : ¬ ∃ p ∈ r.image Prod.swap,
        m2.output_table p.1 = none ∨ m1.output_table p.2 = none := by
      rintro ⟨p, hp, hor⟩
      apply hcr
      refine ⟨p.swap, mem_image_swap.mp hp, ?_⟩
      simpa [Prod.fst_swap, Prod.snd_swap] using hor.symm
    rw [if_neg hcr, if_neg hcr2, Option.map_some']
    congr 1
    ext p
    constructor
    · intro hp
      rw [Finset.mem_filter] at hp
      rw [mem_image_swap, Finset.mem_filter]
      refine ⟨mem_image_swap.mp hp.1, ?_⟩
      have hnb := not_bisimilar_pair_swap m1 m2 r p.swap
      rw [Prod.swap_swap] at hnb
      rw [← hnb]
      exact hp.2
    · intro hp
      rw [mem_image_swap, Finset.mem_filter] at hp
      rw [Finset.mem_filter]
      refine ⟨mem_image_swap.mpr hp.1, ?_⟩
      have hnb := not_bisimilar_pair_swap m1 m2 r p.swap
      rw [Prod.swap_swap] at hnb
      rw [hnb]
      exact hp.2

theorem reach_fixpoint_swap (fn1 fn2 : Finset (Nat × Nat) → Option (Finset (Nat × Nat)))
    (stop1 stop2 : Finset (Nat × Nat) → Bool)
    (hfn : ∀ x, fn2 (x.image Prod.swap) = (fn1 x).map (Finset.image Prod.swap))
    (hstop : ∀ x, stop2 (x.image Prod.swap) = stop1 x) :
    ∀ (fuel : Nat) (x : Finset (Nat × Nat)) (x_len : Int),
      reach_fixpoint fn2 (some stop2) fuel (x.image Prod.swap) x_len
        = (reach_fixpoint fn1 (some stop1) fuel x x_len).map (Finset.image Prod.swap) := by
  intro fuel
  induction fuel with
  | zero => intro x x_len; rfl
  | succ fuel ih =>
    intro x x_len
    have hcard : (((x.image Prod.swap).card : Nat) : Int) = ((x.card : Nat) : Int) := by
      rw [Finset.card_image_of_injective _ Prod.swap_injective]
    by_cases h1 : ((x.card : Nat) : Int) = x_len
    · simp [reach_fixpoint, hcard, h1]
    · by_cases h2 : stop1 x = true
      · simp [reach_fixpoint, hcard, h1, hstop, h2]
      · rw [show reach_fixpoint fn2 (some stop2) (fuel + 1) (x.image Prod.swap) x_len
            = if (((x.image Prod.swap).card : Nat) : Int) = x_len then some (x.image Prod.swap)
              else if stop2 (x.image Prod.swap) then some (x.image Prod.swap)
              else (fn2 (x.image Prod.swap)).bind
                (fun x2 => reach_fixpoint fn2 (some stop2) fuel x2
                  (((x.image Prod.swap).card : Nat) : Int)) from rfl]
        rw [show reach_fixpoint fn1 (some stop1) (fuel + 1) x x_len
            = if ((x.card : Nat) : Int) = x_len then some x
              else if stop1 x then some x
              else (fn1 x).bind
                (fun x2 => reach_fixpoint fn1 (some stop1) fuel x2 ((x.card : Nat) : Int))
            from rfl]
        rw [hcard, if_neg h1, if_neg h1, hstop x, if_neg h2, if_neg h2, hfn x]
        cases hfx : fn1 x with
        | none => rfl
        | some y => exact ih y ((x.card : Nat) : Int)

theorem product_swap (s t : Finset Nat) :
    t ×ˢ s = (s ×ˢ t).image Prod.swap := by
  ext p
  simp only [Finset.mem_product, mem_image_swap, Prod.fst_swap, Prod.snd_swap]
  exact and_comm

theorem is_equiv_stop_swap (m1 m2 : Machine I O) (x : Finset (Nat × Nat)) :
    is_equiv_stop m2 m1 (x.image Prod.swap) = is_equiv_stop m1 m2 x := by
  unfold is_equiv_stop
  cases m1.init_state with
  | none => cases m2.init_state <;> rfl
  | some a =>
    cases m2.init_state with
    | none => rfl
    | some b => exact decide_eq_decide.mpr (not_congr pair_mem_image_swap)

theorem is_equiv_result_swap (m1 m2 : Machine I O) (x : Finset (Nat × Nat)) :
    is_equiv_result m2 m1 (x.image Prod.swap) = is_equiv_result m1 m2 x := by
  unfold is_equiv_result
  cases m1.init_state with
  | none => cases m2.init_state <;> rfl
  | some a =>
    cases m2.init_state with
    | none => rfl
    | some b => exact decide_eq_decide.mpr pair_mem_image_swap

theorem difference_nbs_swap (m1 m2 : Machine I O) (x : Finset (Nat × Nat)) :
    difference_fn (fun r => not_bisimilar_set m2 m1 r) (x.image Prod.swap)
      = (difference_fn (fun r => not_bisimilar_set m1 m2 r) x).map
          (Finset.image Prod.swap) := by
  change (not_bisimilar_set m2 m1 (x.image Prod.swap)).map
      (fun els => x.image Prod.swap \ els)
    = ((not_bisimilar_set m1 m2 x).map (fun els => x \ els)).map (Finset.image Prod.swap)
  rw [not_bisimilar_set_swap]
  cases hnb : not_bisimilar_set m1 m2 x with
  | none => rfl
  | some els =>
    simp only [Option.map_some']
    congr 1
    ext q
    simp only [Finset.mem_sdiff, mem_image_swap]

theorem is_equivalent_symm (m1 m2 : Machine I O) :
    is_equivalent m1 m2 = is_equivalent m2 m1 := by
  unfold is_equivalent greatest_fixpoint
  by_cases hin : m1.input_symbols.toFinset = m2.input_symbols.toFinset
  · have hn1 : ¬ m1.input_symbols.toFinset ≠ m2.input_symbols.toFinset := fun h => h hin
    have hn2 : ¬ m2.input_symbols.toFinset ≠ m1.input_symbols.toFinset := fun h => h hin.symm
    rw [if_neg hn1, if_neg hn2]
    by_cases hout : m1.output_symbols.toFinset = m2.output_symbols.toFinset
    · have ho1 : ¬ m1.output_symbols.toFinset ≠ m2.output_symbols.toFinset := fun h => h hout
      have ho2 : ¬ m2.output_symbols.toFinset ≠ m1.output_symbols.toFinset :=
        fun h => h hout.symm
      rw [if_neg ho1, if_neg ho2]
      have huniv : Finset.range m2.n_states ×ˢ Finset.range m1.n_states
          = (Finset.range m1.n_states ×ˢ Finset.range m2.n_states).image Prod.swap :=
        product_swap _ _
      have hcard : ((Finset.range m1.n_states ×ˢ Finset.range m2.n_states).image
              Prod.swap).card
          = (Finset.range m1.n_states ×ˢ Finset.range m2.n_states).card :=
        Finset.card_image_of_injective _ Prod.swap_injective
      rw [huniv, hcard]
      rw [reach_fixpoint_swap
        (difference_fn (fun r => not_bisimilar_set m1 m2 r))
        (difference_fn (fun r => not_bisimilar_set m2 m1 r))
        (is_equiv_stop m1 m2) (is_equiv_stop m2 m1)
        (difference_nbs_swap m1 m2) (is_equiv_stop_swap m1 m2)]
      cases hres : reach_fixpoint (difference_fn (fun r => not_bisimilar_set m1 m2 r))
          (some (is_equiv_stop m1 m2))
          ((Finset.range m1.n_states ×ˢ Finset.range m2.n_states).card + 2)
          (Finset.range m1.n_states ×ˢ Finset.range m2.n_states) (-1) with
      | none => rfl
      | some gfp =>
        simp only [Option.map_some']
        rw [is_equiv_result_swap]
    · rw [if_pos hout, if_pos (fun h : m2.output_symbols.toFinset
        = m1.output_symbols.toFinset => hout h.symm)]
  · rw [if_pos hin, if_pos (fun h : m2.input_symbols.toFinset
      = m1.input_symbols.toFinset => hin h.symm)]

/-! ### C1: behavior preservation of minimize.
Basic facts about the state-set enumeration, the splitter partition
and class indexing. -/

theorem mem_finset_asc {c : Finset Nat} {a : Nat} : a ∈ finset_asc c ↔ a ∈ c := by
  unfold finset_asc
  rw [List.mem_filter]
  constructor
  · rintro ⟨_, h⟩
    exact of_decide_eq_true h
  · intro h
    refine ⟨?_, decide_eq_true h⟩
    rw [List.mem_range]
    have hle : a ≤ c.fold max 0 id := (Finset.le_fold_max a).mpr (Or.inr ⟨a, h, le_refl a⟩)
    omega

theorem class_rep_mem {c : Finset Nat} (hc : c.Nonempty) : class_rep c ∈ c := by
  obtain ⟨a, ha⟩ := hc
  have hmem : a ∈ finset_asc c := mem_finset_asc.mpr ha
  unfold class_rep
  cases hl : finset_asc c with
  | nil => rw [hl] at hmem; cases hmem
  | cons b l =>
    have hb : b ∈ finset_asc c := by rw [hl]; exact List.mem_cons_self b l
    exact mem_finset_asc.mp hb

theorem foldl_insert_id_mem :
    ∀ (xs acc : List (Finset Nat)) (y : Finset Nat),
      (y ∈ xs.foldl (fun l c => l.insert c) acc ↔ y ∈ acc ∨ y ∈ xs) := by
  intro xs
  induction xs with
  | nil => intro acc y; simp
  | cons x rest ih =>
    intro acc y
    rw [List.foldl_cons, ih, List.mem_insert_iff, List.mem_cons]
    tauto

theorem foldl_insert_id_nodup :
    ∀ (xs acc : List (Finset Nat)), acc.Nodup →
      (xs.foldl (fun l c => l.insert c) acc).Nodup := by
  intro xs
  induction xs with
  | nil => intro acc h; exact h
  | cons x rest ih =>
    intro acc h
    rw [List.foldl_cons]
    exact ih (List.insert x acc) (List.Nodup.insert h)

theorem foldl_insert_id_length :
    ∀ (xs acc : List (Finset Nat)), xs.Nodup → (∀ x ∈ xs, x ∉ acc) →
      (xs.foldl (fun l c => l.insert c) acc).length = acc.length + xs.length := by
  intro xs
  induction xs with
  | nil => intro acc _ _; rfl
  | cons x rest ih =>
    intro acc hnd hfresh
    obtain ⟨hhead, htail⟩ := List.nodup_cons.mp hnd
    have hx : x ∉ acc := hfresh x (List.mem_cons_self x rest)
    rw [List.foldl_cons, ih (acc.insert x) htail ?fresh]
    · rw [List.length_insert_of_not_mem hx, List.length_cons]
      omega
    case fresh =>
      intro z hz
      rw [List.mem_insert_iff]
      rintro (he | hacc)
      · exact hhead (he ▸ hz)
      · exact hfresh z (List.mem_cons_of_mem x hz) hacc

theorem mem_winsert {sp x : Splitter I} {l : List (Splitter I)} :
    x ∈ winsert sp l ↔ x = sp ∨ x ∈ l := by
  unfold winsert
  by_cases h : sp ∈ l
  · rw [if_pos h]
    constructor
    · exact fun hx => Or.inr hx
    · rintro (rfl | hx)
      · exact h
      · exact hx
  · rw [if_neg h]
    exact List.mem_cons

theorem winsert_nodup {sp : Splitter I} {l : List (Splitter I)} (h : l.Nodup) :
    (winsert sp l).Nodup := by
  unfold winsert
  by_cases hm : sp ∈ l
  · rwa [if_pos hm]
  · rw [if_neg hm]
    exact List.nodup_cons.mpr ⟨hm, h⟩

theorem mem_werase {sp x : Splitter I} {l : List (Splitter I)} :
    x ∈ werase sp l ↔ x ∈ l ∧ x ≠ sp := by
  unfold werase
  rw [List.mem_filter]
  simp

theorem werase_nodup {sp : Splitter I} {l : List (Splitter I)} (h : l.Nodup) :
    (werase sp l).Nodup :=
  List.Nodup.filter _ h

theorem foldl_winsert_mem {sym : I} :
    ∀ (xs : List (Finset Nat)) (acc : List (Splitter I)) (b : Finset Nat) (a : I),
      ((b, a) ∈ xs.foldl (fun l c => winsert (c, sym) l) acc
        ↔ (b ∈ xs ∧ a = sym) ∨ (b, a) ∈ acc) := by
  intro xs
  induction xs with
  | nil => intro acc b a; simp
  | cons x rest ih =>
    intro acc b a
    rw [List.foldl_cons, ih, mem_winsert, List.mem_cons, Prod.mk.injEq]
    tauto

theorem foldl_winsert_nodup {sym : I} :
    ∀ (xs : List (Finset Nat)) (acc : List (Splitter I)), acc.Nodup →
      (xs.foldl (fun l c => winsert (c, sym) l) acc).Nodup := by
  intro xs
  induction xs with
  | nil => intro acc h; exact h
  | cons x rest ih =>
    intro acc h
    rw [List.foldl_cons]
    exact ih (winsert (x, sym) acc) (winsert_nodup h)

theorem mem_apply_splitter {m : Machine I O} {g tset : Finset Nat} {a : I}
    {c : Finset Nat} :
    c ∈ apply_splitter m g a tset
      ↔ ∃ s ∈ g,
          c = g.filter (fun t => split_key m tset a t = split_key m tset a s) := by
  unfold apply_splitter
  rw [List.mem_dedup, List.mem_map]
  constructor
  · rintro ⟨s, hs, he⟩
    exact ⟨s, mem_finset_asc.mp hs, he.symm⟩
  · rintro ⟨s, hs, he⟩
    exact ⟨s, mem_finset_asc.mpr hs, he.symm⟩

theorem apply_splitter_subset {m : Machine I O} {g tset : Finset Nat} {a : I}
    {c : Finset Nat} (h : c ∈ apply_splitter m g a tset) : c ⊆ g := by
  obtain ⟨s, _, rfl⟩ := mem_apply_splitter.mp h
  exact Finset.filter_subset _ _

theorem apply_splitter_nonempty {m : Machine I O} {g tset : Finset Nat} {a : I}
    {c : Finset Nat} (h : c ∈ apply_splitter m g a tset) : c.Nonempty := by
  obtain ⟨s, hs, rfl⟩ := mem_apply_splitter.mp h
  exact ⟨s, Finset.mem_filter.mpr ⟨hs, rfl⟩⟩

theorem apply_splitter_cover {m : Machine I O} {g tset : Finset Nat} {a : I}
    {s : Nat} (hs : s ∈ g) : ∃ c ∈ apply_splitter m g a tset, s ∈ c :=
  ⟨g.filter (fun t => split_key m tset a t = split_key m tset a s),
    mem_apply_splitter.mpr ⟨s, hs, rfl⟩, Finset.mem_filter.mpr ⟨hs, rfl⟩⟩

theorem apply_splitter_key_eq {m : Machine I O} {g tset : Finset Nat} {a : I}
    {c : Finset Nat} (hc : c ∈ apply_splitter m g a tset) {s t : Nat}
    (hs : s ∈ c) (ht : t ∈ c) :
    split_key m tset a s = split_key m tset a t := by
  obtain ⟨u, _, rfl⟩ := mem_apply_splitter.mp hc
  exact ((Finset.mem_filter.mp hs).2).trans ((Finset.mem_filter.mp ht).2).symm

theorem apply_splitter_disjoint {m : Machine I O} {g tset : Finset Nat} {a : I}
    {c d : Finset Nat} (hc : c ∈ apply_splitter m g a tset)
    (hd : d ∈ apply_splitter m g a tset) (hne : c ≠ d) : Disjoint c d := by
  obtain ⟨u, hu, rfl⟩ := mem_apply_splitter.mp hc
  obtain ⟨v, hv, rfl⟩ := mem_apply_splitter.mp hd
  rw [Finset.disjoint_left]
  intro x hx hx2
  have h1 := (Finset.mem_filter.mp hx).2
  have h2 := (Finset.mem_filter.mp hx2).2
  apply hne
  apply Finset.filter_congr
  intro y _
  rw [h1.symm.trans h2]

theorem apply_splitter_nodup {m : Machine I O} {g tset : Finset Nat} {a : I} :
    (apply_splitter m g a tset).Nodup := by
  unfold apply_splitter
  exact List.nodup_dedup _

theorem apply_splitter_singleton {m : Machine I O} {g tset : Finset Nat} {a : I}
    (h : (apply_splitter m g a tset).length = 1) :
    apply_splitter m g a tset = [g] := by
  obtain ⟨c, hc⟩ := List.length_eq_one.mp h
  have hcm : c ∈ apply_splitter m g a tset := by rw [hc]; exact List.mem_singleton_self c
  have hsub : c ⊆ g := apply_splitter_subset hcm
  have hsup : g ⊆ c := by
    intro s hs
    obtain ⟨d, hd, hsd⟩ := @apply_splitter_cover I O _ _ m g tset a s hs
    rw [hc] at hd
    rw [← List.mem_singleton.mp hd]
    exact hsd
  rw [hc, Finset.Subset.antisymm hsub hsup]

theorem apply_splitter_not_self {m : Machine I O} {g tset : Finset Nat} {a : I}
    (h : (apply_splitter m g a tset).length ≠ 1) :
    g ∉ apply_splitter m g a tset := by
  intro hg
  by_cases hall : ∀ d ∈ apply_splitter m g a tset, d = g
  · apply h
    have hnodup : (apply_splitter m g a tset).Nodup := apply_splitter_nodup
    have hle : (apply_splitter m g a tset).length ≤ 1 := by
      rw [← List.toFinset_card_of_nodup hnodup]
      have hsubs : (apply_splitter m g a tset).toFinset ⊆ {g} := by
        intro d hd
        rw [List.mem_toFinset] at hd
        rw [Finset.mem_singleton]
        exact hall d hd
      simpa using Finset.card_le_card hsubs
    have hpos : 0 < (apply_splitter m g a tset).length := List.length_pos_of_mem hg
    omega
  · push_neg at hall
    obtain ⟨d, hd, hdg⟩ := hall
    have hdisj : Disjoint d g := apply_splitter_disjoint hd hg hdg
    obtain ⟨x, hx⟩ := apply_splitter_nonempty hd
    exact (Finset.disjoint_left.mp hdisj hx) (apply_splitter_subset hd hx)

theorem mem_output_partitions {m : Machine I O} {c : Finset Nat} :
    c ∈ output_partitions m
      ↔ ∃ s < m.n_states,
          c = (Finset.range m.n_states).filter
            (fun t => m.output_table t = m.output_table s) := by
  unfold output_partitions
  rw [List.mem_dedup, List.mem_map]
  constructor
  · rintro ⟨s, hs, he⟩
    exact ⟨s, List.mem_range.mp hs, he.symm⟩
  · rintro ⟨s, hs, he⟩
    exact ⟨s, List.mem_range.mpr hs, he.symm⟩

theorem output_partitions_is_part (m : Machine I O) :
    IsPart m.n_states (output_partitions m) := by
  refine ⟨?_, ?_, ?_, ?_, List.nodup_dedup _⟩
  · intro c hc
    obtain ⟨s, hs, rfl⟩ := mem_output_partitions.mp hc
    exact ⟨s, Finset.mem_filter.mpr ⟨Finset.mem_range.mpr hs, rfl⟩⟩
  · intro c hc s hs
    obtain ⟨u, _, rfl⟩ := mem_output_partitions.mp hc
    exact Finset.mem_range.mp (Finset.mem_filter.mp hs).1
  · intro s hs
    refine ⟨(Finset.range m.n_states).filter
      (fun t => m.output_table t = m.output_table s), mem_output_partitions.mpr
        ⟨s, hs, rfl⟩, Finset.mem_filter.mpr ⟨Finset.mem_range.mpr hs, rfl⟩⟩
  · intro c hc d hd hne
    obtain ⟨u, _, rfl⟩ := mem_output_partitions.mp hc
    obtain ⟨v, _, rfl⟩ := mem_output_partitions.mp hd
    rw [Finset.disjoint_left]
    intro x hx hx2
    have h1 := (Finset.mem_filter.mp hx).2
    have h2 := (Finset.mem_filter.mp hx2).2
    apply hne
    apply Finset.filter_congr
    intro y _
    rw [h1.symm.trans h2]

theorem find_class_idx_spec {s : Nat} :
    ∀ {p : List (Finset Nat)} {i : Nat}, find_class_idx s p = some i →
      i < p.length ∧ s ∈ p.getD i ∅ := by
  intro p
  induction p with
  | nil => intro i h; cases h
  | cons c rest ih =>
    intro i h
    unfold find_class_idx at h
    by_cases hm : s ∈ c
    · rw [if_pos hm] at h
      cases h
      exact ⟨Nat.succ_pos _, hm⟩
    · rw [if_neg hm] at h
      cases hrec : find_class_idx s rest with
      | none => rw [hrec] at h; cases h
      | some j =>
        rw [hrec] at h
        cases h
        obtain ⟨hj, hsj⟩ := ih hrec
        exact ⟨by simpa using Nat.succ_lt_succ hj, hsj⟩

theorem find_class_idx_of_mem {s : Nat} :
    ∀ {p : List (Finset Nat)}, (∃ c ∈ p, s ∈ c) → ∃ i, find_class_idx s p = some i := by
  intro p
  induction p with
  | nil => rintro ⟨c, hc, _⟩; cases hc
  | cons c rest ih =>
    rintro ⟨d, hd, hsd⟩
    unfold find_class_idx
    by_cases hm : s ∈ c
    · exact ⟨0, by rw [if_pos hm]⟩
    · rcases List.mem_cons.mp hd with rfl | hd2
      · exact absurd hsd hm
      · obtain ⟨j, hj⟩ := ih ⟨d, hd2, hsd⟩
        exact ⟨j + 1, by rw [if_neg hm, hj]; rfl⟩

theorem getD_mem {p : List (Finset Nat)} {i : Nat} (h : i < p.length) :
    p.getD i ∅ ∈ p := by
  rw [List.getD_eq_getElem _ _ h]
  exact List.getElem_mem h

theorem is_part_unique_idx {n : Nat} {p : List (Finset Nat)} (hp : IsPart n p)
    {s i j : Nat} (hi : i < p.length) (hj : j < p.length)
    (hsi : s ∈ p.getD i ∅) (hsj : s ∈ p.getD j ∅) : i = j := by
  by_cases he : p.getD i ∅ = p.getD j ∅
  · have hnd := hp.2.2.2.2
    rw [List.getD_eq_getElem _ _ hi, List.getD_eq_getElem _ _ hj] at he
    have : (⟨i, hi⟩ : Fin p.length) = ⟨j, hj⟩ :=
      hnd.get_inj_iff.mp he
    exact congrArg Fin.val this
  · exact absurd hsj (Finset.disjoint_left.mp
      (hp.2.2.2.1 _ (getD_mem hi) _ (getD_mem hj) he) hsi)

theorem find_class_idx_eq_of_mem {n : Nat} {p : List (Finset Nat)} (hp : IsPart n p)
    {s i : Nat} (hi : i < p.length) (hs : s ∈ p.getD i ∅) :
    find_class_idx s p = some i := by
  obtain ⟨j, hj⟩ := find_class_idx_of_mem ⟨_, getD_mem hi, hs⟩
  obtain ⟨hjlen, hjs⟩ := find_class_idx_spec hj
  rw [hj]
  exact congrArg some (is_part_unique_idx hp hjlen hi hjs hs)

theorem find_class_idx_last_eq_of_mem {n : Nat} {p : List (Finset Nat)} (hp : IsPart n p)
    {s i : Nat} (hi : i < p.length) (hs : s ∈ p.getD i ∅) :
    find_class_idx_last s p = some i := by
  unfold find_class_idx_last
  obtain ⟨j, hj⟩ := find_class_idx_of_mem (p := p.reverse)
    ⟨_, List.mem_reverse.mpr (getD_mem hi), hs⟩
  obtain ⟨hjlen, hjs⟩ := find_class_idx_spec hj
  rw [List.length_reverse] at hjlen
  have hjs2 : s ∈ p.getD (p.length - 1 - j) ∅ := by
    rw [List.getD_eq_getElem _ _ (by rw [List.length_reverse]; exact hjlen)] at hjs
    rw [List.getD_eq_getElem _ _ (by omega)]
    rw [List.getElem_reverse] at hjs
    exact hjs
  rw [hj, Option.map_some']
  exact congrArg some (is_part_unique_idx hp (by omega) hi hjs2 hs)

theorem wu_step_nodup {g : Finset Nat} {parts : List (Finset Nat)} {sym : I}
    {acc : List (Splitter I)} (hacc : acc.Nodup) :
    (parts.foldl (fun acc2 sub => winsert (sub, sym) acc2) (werase (g, sym) acc)).Nodup :=
  foldl_winsert_nodup _ _ (werase_nodup hacc)

theorem mem_wu_step {g : Finset Nat} {parts : List (Finset Nat)} {sym : I}
    {acc : List (Splitter I)} (b : Finset Nat) (a : I) :
    ((b, a) ∈ parts.foldl (fun acc2 sub => winsert (sub, sym) acc2) (werase (g, sym) acc)
      ↔ (b ∈ parts ∧ a = sym) ∨ ((b, a) ∈ acc ∧ ¬(b = g ∧ a = sym))) := by
  rw [foldl_winsert_mem, mem_werase]
  constructor
  · rintro (⟨hb, ha⟩ | ⟨hmem, hne⟩)
    · exact Or.inl ⟨hb, ha⟩
    · refine Or.inr ⟨hmem, fun hba => hne ?_⟩
      rw [hba.1, hba.2]
  · rintro (⟨hb, ha⟩ | ⟨hmem, hng⟩)
    · exact Or.inl ⟨hb, ha⟩
    · refine Or.inr ⟨hmem, fun hh => hng ?_⟩
      rw [Prod.mk.injEq] at hh
      exact ⟨hh.1, hh.2⟩

theorem wu_fold_nodup {g : Finset Nat} {parts : List (Finset Nat)} :
    ∀ (syms : List I) (w : List (Splitter I)), w.Nodup →
      (syms.foldl
        (fun acc sym => parts.foldl (fun acc2 sub => winsert (sub, sym) acc2)
          (werase (g, sym) acc)) w).Nodup := by
  intro syms
  induction syms with
  | nil => intro w hw; exact hw
  | cons sym rest ih => intro w hw; exact ih _ (wu_step_nodup hw)

theorem mem_wu_fold {g : Finset Nat} {parts : List (Finset Nat)} (hgp : g ∉ parts) :
    ∀ (syms : List I) (w : List (Splitter I)), ∀ (b : Finset Nat) (a : I),
      ((b, a) ∈ syms.foldl
          (fun acc sym => parts.foldl (fun acc2 sub => winsert (sub, sym) acc2)
            (werase (g, sym) acc)) w
        ↔ (b ∈ parts ∧ a ∈ syms) ∨ ((b, a) ∈ w ∧ ¬(b = g ∧ a ∈ syms))) := by
  intro syms
  induction syms with
  | nil =>
    intro w b a
    simp
  | cons sym rest ih =>
    intro w b a
    rw [List.foldl_cons, ih, mem_wu_step]
    have hbg : ¬(b ∈ parts ∧ b = g) := fun hh => hgp (hh.2 ▸ hh.1)
    simp only [List.mem_cons]
    tauto

theorem mem_waiting_update {m : Machine I O} {g : Finset Nat}
    {parts : List (Finset Nat)} (hgp : g ∉ parts) {w : List (Splitter I)}
    (b : Finset Nat) (a : I) :
    ((b, a) ∈ waiting_update m g parts w
      ↔ (b ∈ parts ∧ a ∈ m.input_symbols)
        ∨ ((b, a) ∈ w ∧ ¬(b = g ∧ a ∈ m.input_symbols))) :=
  mem_wu_fold hgp m.input_symbols w b a

theorem waiting_update_nodup {m : Machine I O} {g : Finset Nat}
    {parts : List (Finset Nat)} {w : List (Splitter I)} (hw : w.Nodup) :
    (waiting_update m g parts w).Nodup :=
  wu_fold_nodup m.input_symbols w hw

theorem mem_iw_fold {p : List (Finset Nat)} :
    ∀ (syms : List I) (acc : List (Splitter I)) (b : Finset Nat) (a : I),
      ((b, a) ∈ syms.foldl
          (fun acc2 sym => p.foldl (fun acc3 g => winsert (g, sym) acc3) acc2) acc
        ↔ (b ∈ p ∧ a ∈ syms) ∨ (b, a) ∈ acc) := by
  intro syms
  induction syms with
  | nil => intro acc b a; simp
  | cons sym rest ih =>
    intro acc b a
    rw [List.foldl_cons, ih, foldl_winsert_mem]
    simp only [List.mem_cons]
    tauto

theorem iw_fold_nodup {p : List (Finset Nat)} :
    ∀ (syms : List I) (acc : List (Splitter I)), acc.Nodup →
      (syms.foldl
        (fun acc2 sym => p.foldl (fun acc3 g => winsert (g, sym) acc3) acc2) acc).Nodup := by
  intro syms
  induction syms with
  | nil => intro acc h; exact h
  | cons sym rest ih => intro acc h; exact ih _ (foldl_winsert_nodup _ _ h)

theorem mem_initial_waiting {m : Machine I O} {p : List (Finset Nat)}
    (b : Finset Nat) (a : I) :
    ((b, a) ∈ initial_waiting m p ↔ b ∈ p ∧ a ∈ m.input_symbols) := by
  unfold initial_waiting
  rw [mem_iw_fold]
  simp

theorem initial_waiting_nodup {m : Machine I O} {p : List (Finset Nat)} :
    (initial_waiting m p).Nodup :=
  iw_fold_nodup _ _ List.nodup_nil

theorem hopcroft_iter_cons (m : Machine I O) (tset : Finset Nat) (a0 : I)
    (g : Finset Nat) (gs : List (Finset Nat))
    (acc : List (Finset Nat) × List (Splitter I)) :
    hopcroft_iter m tset a0 (g :: gs) acc
      = if (apply_splitter m g a0 tset).length = 1
        then hopcroft_iter m tset a0 gs
          ((apply_splitter m g a0 tset).foldl (fun l c => l.insert c) acc.1, acc.2)
        else hopcroft_iter m tset a0 gs
          ((apply_splitter m g a0 tset).foldl (fun l c => l.insert c) acc.1,
            waiting_update m g (apply_splitter m g a0 tset) acc.2) := rfl

theorem hopcroft_iter_fst_mem (m : Machine I O) (tset : Finset Nat) (a0 : I) :
    ∀ (gs : List (Finset Nat)) (acc : List (Finset Nat) × List (Splitter I))
      (c : Finset Nat),
      (c ∈ (hopcroft_iter m tset a0 gs acc).1
        ↔ c ∈ acc.1 ∨ ∃ g ∈ gs, c ∈ apply_splitter m g a0 tset) := by
  intro gs
  induction gs with
  | nil => intro acc c; simp [hopcroft_iter]
  | cons g rest ih =>
    intro acc c
    rw [hopcroft_iter_cons]
    by_cases hsplit : (apply_splitter m g a0 tset).length = 1
    · rw [if_pos hsplit, ih, foldl_insert_id_mem]
      simp only [List.exists_mem_cons_iff]
      tauto
    · rw [if_neg hsplit, ih, foldl_insert_id_mem]
      simp only [List.exists_mem_cons_iff]
      tauto

theorem hopcroft_iter_fst_nodup (m : Machine I O) (tset : Finset Nat) (a0 : I) :
    ∀ (gs : List (Finset Nat)) (acc : List (Finset Nat) × List (Splitter I)),
      acc.1.Nodup → (hopcroft_iter m tset a0 gs acc).1.Nodup := by
  intro gs
  induction gs with
  | nil => intro acc h; exact h
  | cons g rest ih =>
    intro acc h
    rw [hopcroft_iter_cons]
    by_cases hsplit : (apply_splitter m g a0 tset).length = 1
    · rw [if_pos hsplit]
      exact ih _ (foldl_insert_id_nodup _ _ h)
    · rw [if_neg hsplit]
      exact ih _ (foldl_insert_id_nodup _ _ h)

theorem hopcroft_iter_snd_nodup (m : Machine I O) (tset : Finset Nat) (a0 : I) :
    ∀ (gs : List (Finset Nat)) (acc : List (Finset Nat) × List (Splitter I)),
      acc.2.Nodup → (hopcroft_iter m tset a0 gs acc).2.Nodup := by
  intro gs
  induction gs with
  | nil => intro acc h; exact h
  | cons g rest ih =>
    intro acc h
    rw [hopcroft_iter_cons]
    by_cases hsplit : (apply_splitter m g a0 tset).length = 1
    · rw [if_pos hsplit]
      exact ih _ h
    · rw [if_neg hsplit]
      exact ih _ (waiting_update_nodup h)

theorem hopcroft_iter_no_split (m : Machine I O) (tset : Finset Nat) (a0 : I) :
    ∀ (gs : List (Finset Nat)) (acc : List (Finset Nat) × List (Splitter I)),
      (∀ g ∈ gs, (apply_splitter m g a0 tset).length = 1) →
      (hopcroft_iter m tset a0 gs acc).1 = gs.foldl (fun l c => l.insert c) acc.1
      ∧ (hopcroft_iter m tset a0 gs acc).2 = acc.2 := by
  intro gs
  induction gs with
  | nil => intro acc _; exact ⟨rfl, rfl⟩
  | cons g rest ih =>
    intro acc hall
    have hg := hall g (List.mem_cons_self g rest)
    rw [hopcroft_iter_cons, if_pos hg, apply_splitter_singleton hg]
    have hrest := ih (acc.1.insert g, acc.2)
      (fun g2 hg2 => hall g2 (List.mem_cons_of_mem g hg2))
    constructor
    · rw [List.foldl_cons]
      exact hrest.1
    · exact hrest.2

theorem hopcroft_iter_fst_length (m : Machine I O) (tset : Finset Nat) (a0 : I) :
    ∀ (gs : List (Finset Nat)) (acc : List (Finset Nat) × List (Splitter I)),
      (∀ c ∈ gs, c.Nonempty) → gs.Pairwise Disjoint →
      (∀ c ∈ acc.1, c.Nonempty ∧ ∀ g ∈ gs, Disjoint c g) → acc.1.Nodup →
      (hopcroft_iter m tset a0 gs acc).1.length
        = acc.1.length + (gs.map (fun g => (apply_splitter m g a0 tset).length)).sum := by
  intro gs
  induction gs with
  | nil => intro acc _ _ _ _; simp [hopcroft_iter]
  | cons g rest ih =>
    intro acc hne hdisj hacc haccnd
    have hdg : ∀ g2 ∈ rest, Disjoint g g2 := (List.pairwise_cons.mp hdisj).1
    have hdrest : rest.Pairwise Disjoint := (List.pairwise_cons.mp hdisj).2
    have hfresh : ∀ c ∈ apply_splitter m g a0 tset, c ∉ acc.1 := by
      intro c hc hmem
      obtain ⟨x, hx⟩ := apply_splitter_nonempty hc
      have hcsub : c ⊆ g := apply_splitter_subset hc
      exact Finset.disjoint_left.mp ((hacc c hmem).2 g (List.mem_cons_self g rest))
        hx (hcsub hx)
    have hlen1 : ((apply_splitter m g a0 tset).foldl (fun l c => l.insert c) acc.1).length
        = acc.1.length + (apply_splitter m g a0 tset).length :=
      foldl_insert_id_length _ _ apply_splitter_nodup hfresh
    have hacc2 : ∀ c ∈ (apply_splitter m g a0 tset).foldl (fun l c => l.insert c) acc.1,
        c.Nonempty ∧ ∀ g2 ∈ rest, Disjoint c g2 := by
      intro c hc
      rw [foldl_insert_id_mem] at hc
      rcases hc with hc | hc
      · exact ⟨(hacc c hc).1, fun g2 hg2 => (hacc c hc).2 g2 (List.mem_cons_of_mem g hg2)⟩
      · refine ⟨apply_splitter_nonempty hc, fun g2 hg2 => ?_⟩
        exact Finset.disjoint_of_subset_left (apply_splitter_subset hc) (hdg g2 hg2)
    have haccnd2 := foldl_insert_id_nodup (apply_splitter m g a0 tset) acc.1 haccnd
    rw [hopcroft_iter_cons]
    by_cases hsplit : (apply_splitter m g a0 tset).length = 1
    · rw [if_pos hsplit,
        ih _ (fun c hc => hne c (List.mem_cons_of_mem g hc)) hdrest hacc2 haccnd2]
      simp only [List.map_cons, List.sum_cons, hlen1]
      omega
    · rw [if_neg hsplit,
        ih _ (fun c hc => hne c (List.mem_cons_of_mem g hc)) hdrest hacc2 haccnd2]
      simp only [List.map_cons, List.sum_cons, hlen1]
      omega

theorem list_length_le_sum_of_one_le :
    ∀ (l : List Nat), (∀ x ∈ l, 1 ≤ x) → l.length ≤ l.sum := by
  intro l
  induction l with
  | nil => intro _; simp
  | cons x rest ih =>
    intro h
    have hx := h x (List.mem_cons_self x rest)
    have := ih (fun y hy => h y (List.mem_cons_of_mem x hy))
    rw [List.length_cons, List.sum_cons]
    omega

theorem list_length_lt_sum_of_two :
    ∀ (l : List Nat), (∀ x ∈ l, 1 ≤ x) → ∀ x0 ∈ l, 2 ≤ x0 →
      l.length + 1 ≤ l.sum := by
  intro l
  induction l with
  | nil => intro _ x0 hx0; cases hx0
  | cons x rest ih =>
    intro h x0 hx0 h2
    have hrest := list_length_le_sum_of_one_le rest
      (fun y hy => h y (List.mem_cons_of_mem x hy))
    rw [List.length_cons, List.sum_cons]
    rcases List.mem_cons.mp hx0 with rfl | hx0r
    · omega
    · have := ih (fun y hy => h y (List.mem_cons_of_mem x hy)) x0 hx0r h2
      have hx := h x (List.mem_cons_self x rest)
      omega

theorem is_part_length_le {n : Nat} {p : List (Finset Nat)} (hp : IsPart n p) :
    p.length ≤ n := by
  obtain ⟨hne, hbound, _, hdisj, hnd⟩ := hp
  have h1 : p.length = p.toFinset.card := (List.toFinset_card_of_nodup hnd).symm
  have hdisj2 : ∀ c ∈ p.toFinset, ∀ d ∈ p.toFinset, c ≠ d → Disjoint c d := by
    intro c hc d hd
    rw [List.mem_toFinset] at hc hd
    exact hdisj c hc d hd
  have h2 : p.toFinset.card ≤ p.toFinset.sum (fun u => (id u).card) := by
    rw [Finset.card_eq_sum_ones]
    apply Finset.sum_le_sum
    intro c hc
    rw [List.mem_toFinset] at hc
    exact Finset.card_pos.mpr (hne c hc)
  have h3 : (p.toFinset.biUnion id).card = p.toFinset.sum (fun u => (id u).card) :=
    Finset.card_biUnion (fun c hc d hd hcd => hdisj2 c hc d hd hcd)
  have h4 : p.toFinset.biUnion id ⊆ Finset.range n := by
    intro s hs
    rw [Finset.mem_biUnion] at hs
    obtain ⟨c, hc, hsc⟩ := hs
    rw [List.mem_toFinset] at hc
    exact Finset.mem_range.mpr (hbound c hc s hsc)
  have h5 := Finset.card_le_card h4
  rw [Finset.card_range] at h5
  omega

theorem splitter_list_length_le (m : Machine I O) (w : List (Splitter I))
    (p : List (Finset Nat)) (hnd : w.Nodup)
    (hsub : ∀ sp ∈ w, sp.1 ∈ p ∧ sp.2 ∈ m.input_symbols) :
    w.length ≤ p.length * m.input_symbols.length := by
  have h1 : w.length = w.toFinset.card := (List.toFinset_card_of_nodup hnd).symm
  have h2 : w.toFinset ⊆ p.toFinset ×ˢ m.input_symbols.toFinset := by
    intro sp hsp
    rw [List.mem_toFinset] at hsp
    rw [Finset.mem_product, List.mem_toFinset, List.mem_toFinset]
    exact hsub sp hsp
  have h3 := Finset.card_le_card h2
  rw [Finset.card_product] at h3
  have h4 : p.toFinset.card ≤ p.length := p.toFinset_card_le
  have h5 : m.input_symbols.toFinset.card ≤ m.input_symbols.length :=
    m.input_symbols.toFinset_card_le
  calc w.length = w.toFinset.card := h1
    _ ≤ p.toFinset.card * m.input_symbols.toFinset.card := h3
    _ ≤ p.length * m.input_symbols.length := Nat.mul_le_mul h4 h5

theorem pairwise_disjoint_of_is_part {n : Nat} {p : List (Finset Nat)}
    (hp : IsPart n p) : p.Pairwise Disjoint := by
  obtain ⟨_, _, _, hdisj, hnd⟩ := hp
  rw [List.pairwise_iff_get]
  intro i j hij
  have hi : p.get i ∈ p := p.get_mem i.1 i.2
  have hj : p.get j ∈ p := p.get_mem j.1 j.2
  refine hdisj _ hi _ hj ?_
  intro he
  have hv : i.1 = j.1 := congrArg Fin.val (hnd.get_inj_iff.mp he)
  have hlt : i.1 < j.1 := hij
  omega

theorem hopcroft_iter_snd_mem (m : Machine I O) (tset : Finset Nat) (a0 : I) :
    ∀ (gs : List (Finset Nat)) (acc : List (Finset Nat) × List (Splitter I)),
      (∀ c ∈ gs, c.Nonempty) → gs.Pairwise Disjoint →
      ∀ (b : Finset Nat) (a : I),
      ((b, a) ∈ (hopcroft_iter m tset a0 gs acc).2 ↔
        (∃ g ∈ gs, (apply_splitter m g a0 tset).length ≠ 1
            ∧ b ∈ apply_splitter m g a0 tset ∧ a ∈ m.input_symbols)
        ∨ ((b, a) ∈ acc.2
            ∧ ¬ ∃ g ∈ gs, (apply_splitter m g a0 tset).length ≠ 1 ∧ b = g
                ∧ a ∈ m.input_symbols)) := by
  intro gs
  induction gs with
  | nil => intro acc _ _ b a; simp [hopcroft_iter]
  | cons g rest ih =>
    intro acc hne hdisj b a
    have hdg : ∀ g2 ∈ rest, Disjoint g g2 := (List.pairwise_cons.mp hdisj).1
    have hdrest := (List.pairwise_cons.mp hdisj).2
    have hnerest : ∀ c ∈ rest, c.Nonempty := fun c hc => hne c (List.mem_cons_of_mem g hc)
    rw [hopcroft_iter_cons]
    by_cases hsplit : (apply_splitter m g a0 tset).length = 1
    · rw [if_pos hsplit, ih _ hnerest hdrest]
      constructor
      · rintro (⟨g2, hg2, hlen, hbp, ha⟩ | ⟨hacc, hnot⟩)
        · exact Or.inl ⟨g2, List.mem_cons_of_mem g hg2, hlen, hbp, ha⟩
        · refine Or.inr ⟨hacc, ?_⟩
          rintro ⟨g2, hg2, hlen, hbg, ha⟩
          rcases List.mem_cons.mp hg2 with rfl | hg2r
          · exact hlen hsplit
          · exact hnot ⟨g2, hg2r, hlen, hbg, ha⟩
      · rintro (⟨g2, hg2, hlen, hbp, ha⟩ | ⟨hacc, hnot⟩)
        · rcases List.mem_cons.mp hg2 with rfl | hg2r
          · exact absurd hsplit hlen
          · exact Or.inl ⟨g2, hg2r, hlen, hbp, ha⟩
        · refine Or.inr ⟨hacc, ?_⟩
          rintro ⟨g2, hg2, hlen, hbg, ha⟩
          exact hnot ⟨g2, List.mem_cons_of_mem g hg2, hlen, hbg, ha⟩
    · rw [if_neg hsplit, ih _ hnerest hdrest]
      rw [show ((apply_splitter m g a0 tset).foldl (fun l c => l.insert c) acc.1,
          waiting_update m g (apply_splitter m g a0 tset) acc.2).2
          = waiting_update m g (apply_splitter m g a0 tset) acc.2 from rfl]
      rw [mem_waiting_update (apply_splitter_not_self hsplit)]
      have himp : ∀ g2 ∈ rest, b ∈ apply_splitter m g a0 tset → b ≠ g2 := by
        intro g2 hg2 hbp heq
        obtain ⟨x, hx⟩ := apply_splitter_nonempty hbp
        exact Finset.disjoint_left.mp (hdg g2 hg2)
          ((apply_splitter_subset hbp) hx) (heq ▸ hx)
      constructor
      · rintro (⟨g2, hg2, hlen, hbp, ha⟩ | ⟨(⟨hbp, ha⟩ | ⟨hacc, hng⟩), hnot⟩)
        · exact Or.inl ⟨g2, List.mem_cons_of_mem g hg2, hlen, hbp, ha⟩
        · exact Or.inl ⟨g, List.mem_cons_self g rest, hsplit, hbp, ha⟩
        · refine Or.inr ⟨hacc, ?_⟩
          rintro ⟨g2, hg2, hlen, hbg, ha⟩
          rcases List.mem_cons.mp hg2 with rfl | hg2r
          · exact hng ⟨hbg, ha⟩
          · exact hnot ⟨g2, hg2r, hlen, hbg, ha⟩
      · rintro (⟨g2, hg2, hlen, hbp, ha⟩ | ⟨hacc, hnot⟩)
        · rcases List.mem_cons.mp hg2 with rfl | hg2r
          · refine Or.inr ⟨Or.inl ⟨hbp, ha⟩, ?_⟩
            rintro ⟨g3, hg3, hlen3, hbg3, ha3⟩
            exact himp g3 hg3 hbp hbg3
          · exact Or.inl ⟨g2, hg2r, hlen, hbp, ha⟩
        · refine Or.inr ⟨Or.inr ⟨hacc, ?_⟩, ?_⟩
          · rintro ⟨hbg, ha⟩
            exact hnot ⟨g, List.mem_cons_self g rest, hsplit, hbg, ha⟩
          · rintro ⟨g2, hg2, hlen, hbg, ha⟩
            exact hnot ⟨g2, List.mem_cons_of_mem g hg2, hlen, hbg, ha⟩

theorem hopcroft_iter_is_part (m : Machine I O) {tset : Finset Nat} {a0 : I}
    {p : List (Finset Nat)} {ws : List (Splitter I)} (hp : IsPart m.n_states p) :
    IsPart m.n_states (hopcroft_iter m tset a0 p ([], ws)).1 := by
  obtain ⟨hne, hbound, hcover, hdisj, hnd⟩ := hp
  have hmem : ∀ c, c ∈ (hopcroft_iter m tset a0 p ([], ws)).1
      ↔ ∃ g ∈ p, c ∈ apply_splitter m g a0 tset := by
    intro c
    rw [hopcroft_iter_fst_mem]
    simp
  refine ⟨?_, ?_, ?_, ?_, hopcroft_iter_fst_nodup _ _ _ _ _ List.nodup_nil⟩
  · intro c hc
    obtain ⟨g, hg, hcg⟩ := (hmem c).mp hc
    exact apply_splitter_nonempty hcg
  · intro c hc s hs
    obtain ⟨g, hg, hcg⟩ := (hmem c).mp hc
    exact hbound g hg s (apply_splitter_subset hcg hs)
  · intro s hsn
    obtain ⟨g, hg, hsg⟩ := hcover s hsn
    obtain ⟨c, hc, hsc⟩ := @apply_splitter_cover I O _ _ m g tset a0 s hsg
    exact ⟨c, (hmem c).mpr ⟨g, hg, hc⟩, hsc⟩
  · intro c hc d hd hcd
    obtain ⟨g1, hg1, hcg⟩ := (hmem c).mp hc
    obtain ⟨g2, hg2, hdg⟩ := (hmem d).mp hd
    by_cases hgg : g1 = g2
    · subst hgg
      exact apply_splitter_disjoint hcg hdg hcd
    · exact Finset.disjoint_of_subset_left (apply_splitter_subset hcg)
        (Finset.disjoint_of_subset_right (apply_splitter_subset hdg)
          (hdisj g1 hg1 g2 hg2 hgg))

/-- One round of the `_hopcroft_minimize` loop preserves the loop
invariant and strictly decreases the termination measure. -/
theorem hopcroft_iter_master (m : Machine I O) (tset : Finset Nat) (a0 : I)
    (p : List (Finset Nat)) (ws : List (Splitter I))
    (hinv : HInv m p ((tset, a0) :: ws)) :
    HInv m (hopcroft_iter m tset a0 p ([], ws)).1 (hopcroft_iter m tset a0 p ([], ws)).2
      ∧ hmeasure m (hopcroft_iter m tset a0 p ([], ws)).1
            (hopcroft_iter m tset a0 p ([], ws)).2
        < hmeasure m p ((tset, a0) :: ws) := by
  obtain ⟨hp, hwnd, hwsub, hmain⟩ := hinv
  have hpd := pairwise_disjoint_of_is_part hp
  have hne := hp.1
  have hnd := hp.2.2.2.2
  have hwsnd : ws.Nodup := (List.nodup_cons.mp hwnd).2
  have hnpmem : ∀ c, c ∈ (hopcroft_iter m tset a0 p ([], ws)).1
      ↔ ∃ g ∈ p, c ∈ apply_splitter m g a0 tset := by
    intro c
    rw [hopcroft_iter_fst_mem]
    simp
  have hw2mem : ∀ (b : Finset Nat) (a : I),
      ((b, a) ∈ (hopcroft_iter m tset a0 p ([], ws)).2 ↔
        (∃ g ∈ p, (apply_splitter m g a0 tset).length ≠ 1
            ∧ b ∈ apply_splitter m g a0 tset ∧ a ∈ m.input_symbols)
        ∨ ((b, a) ∈ ws
            ∧ ¬ ∃ g ∈ p, (apply_splitter m g a0 tset).length ≠ 1 ∧ b = g
                ∧ a ∈ m.input_symbols)) :=
    fun b a => hopcroft_iter_snd_mem m tset a0 p ([], ws) hne hpd b a
  have hnpIsPart : IsPart m.n_states (hopcroft_iter m tset a0 p ([], ws)).1 :=
    hopcroft_iter_is_part m hp
  have hw2nd : (hopcroft_iter m tset a0 p ([], ws)).2.Nodup :=
    hopcroft_iter_snd_nodup m tset a0 p ([], ws) hwsnd
  have hw2sub : ∀ sp ∈ (hopcroft_iter m tset a0 p ([], ws)).2,
      sp.1 ∈ (hopcroft_iter m tset a0 p ([], ws)).1 ∧ sp.2 ∈ m.input_symbols := by
    rintro ⟨b, a⟩ hsp
    rcases (hw2mem b a).mp hsp with ⟨g, hg, hlen, hbp, ha⟩ | ⟨hmemws, hnot⟩
    · exact ⟨(hnpmem b).mpr ⟨g, hg, hbp⟩, ha⟩
    · obtain ⟨hbp, ha⟩ := hwsub (b, a) (List.mem_cons_of_mem _ hmemws)
      refine ⟨?_, ha⟩
      by_cases hbs : (apply_splitter m b a0 tset).length = 1
      · refine (hnpmem b).mpr ⟨b, hbp, ?_⟩
        rw [apply_splitter_singleton hbs]
        exact List.mem_singleton_self b
      · exact absurd ⟨b, hbp, hbs, rfl, ha⟩ hnot
  have hw2main : ∀ b ∈ (hopcroft_iter m tset a0 p ([], ws)).1,
      ∀ a ∈ m.input_symbols, (b, a) ∉ (hopcroft_iter m tset a0 p ([], ws)).2 →
      KeyStab m (hopcroft_iter m tset a0 p ([], ws)).1 b a := by
    intro b hbnp a ha hnotw2
    obtain ⟨g, hg, hbparts⟩ := (hnpmem b).mp hbnp
    by_cases hgsplit : (apply_splitter m g a0 tset).length = 1
    case neg =>
      exact absurd ((hw2mem b a).mpr (Or.inl ⟨g, hg, hgsplit, hbparts, ha⟩)) hnotw2
    case pos =>
      have hbg : b = g := by
        rw [apply_splitter_singleton hgsplit] at hbparts
        exact List.mem_singleton.mp hbparts
      by_cases hba : b = tset ∧ a = a0
      · obtain ⟨hbt, hba0⟩ := hba
        subst hbt
        subst hba0
        intro c hc s hs t ht
        obtain ⟨g2, hg2, hcg2⟩ := (hnpmem c).mp hc
        exact apply_splitter_key_eq hcg2 hs ht
      · by_cases hmemws : (b, a) ∈ ws
        · refine absurd ((hw2mem b a).mpr (Or.inr ⟨hmemws, ?_⟩)) hnotw2
          rintro ⟨g2, hg2, hlen2, hbg2, ha2⟩
          rw [← hbg2] at hlen2
          exact hlen2 (by rw [hbg]; exact hgsplit)
        · have hnotcons : (b, a) ∉ (tset, a0) :: ws := by
            rw [List.mem_cons]
            rintro (heq | hmem2)
            · rw [Prod.mk.injEq] at heq
              exact hba ⟨heq.1, heq.2⟩
            · exact hmemws hmem2
          have hstab := hmain b (by rw [hbg]; exact hg) a ha hnotcons
          intro c hc s hs t ht
          obtain ⟨g2, hg2, hcg2⟩ := (hnpmem c).mp hc
          exact hstab g2 hg2 s (apply_splitter_subset hcg2 hs) t
            (apply_splitter_subset hcg2 ht)
  refine ⟨⟨hnpIsPart, hw2nd, hw2sub, hw2main⟩, ?_⟩
  by_cases hall : ∀ g ∈ p, (apply_splitter m g a0 tset).length = 1
  · obtain ⟨hfst, hsnd⟩ := hopcroft_iter_no_split m tset a0 p ([], ws) hall
    have hlen : (hopcroft_iter m tset a0 p ([], ws)).1.length = p.length := by
      rw [hfst]
      have := foldl_insert_id_length p [] hnd (fun x _ hx => (List.not_mem_nil x) hx)
      simpa using this
    unfold hmeasure
    rw [hlen, hsnd, List.length_cons]
    show _ + ws.length < _ + (ws.length + 1)
    omega
  · push_neg at hall
    obtain ⟨g0, hg0, hg0split⟩ := hall
    have hlen : (hopcroft_iter m tset a0 p ([], ws)).1.length
        = (p.map (fun g => (apply_splitter m g a0 tset).length)).sum := by
      rw [hopcroft_iter_fst_length m tset a0 p ([], ws) hne hpd
        (fun c hc => absurd hc (List.not_mem_nil c)) List.nodup_nil]
      simp
    have hone : ∀ x ∈ p.map (fun g => (apply_splitter m g a0 tset).length), 1 ≤ x := by
      intro x hx
      obtain ⟨g, hg, rfl⟩ := List.mem_map.mp hx
      obtain ⟨y, hy⟩ := hne g hg
      obtain ⟨c, hc, _⟩ := @apply_splitter_cover I O _ _ m g tset a0 y hy
      exact List.length_pos_of_mem hc
    have htwo : 2 ≤ (apply_splitter m g0 a0 tset).length := by
      have h1 := hone _ (List.mem_map_of_mem _ hg0)
      omega
    have hsum : p.length + 1 ≤ (hopcroft_iter m tset a0 p ([], ws)).1.length := by
      rw [hlen]
      have := list_length_lt_sum_of_two _ hone _ (List.mem_map_of_mem _ hg0) htwo
      simpa using this
    have hnple : (hopcroft_iter m tset a0 p ([], ws)).1.length ≤ m.n_states :=
      is_part_length_le hnpIsPart
    have hw2le : (hopcroft_iter m tset a0 p ([], ws)).2.length
        ≤ m.n_states * m.input_symbols.length := by
      have h1 := splitter_list_length_le m _ _ hw2nd hw2sub
      calc (hopcroft_iter m tset a0 p ([], ws)).2.length
          ≤ (hopcroft_iter m tset a0 p ([], ws)).1.length * m.input_symbols.length := h1
        _ ≤ m.n_states * m.input_symbols.length := Nat.mul_le_mul_right _ hnple
    unfold hmeasure
    rw [List.length_cons]
    have hstep1 : (m.n_states - (hopcroft_iter m tset a0 p ([], ws)).1.length)
          * (m.n_states * m.input_symbols.length + 1)
          + (hopcroft_iter m tset a0 p ([], ws)).2.length
        ≤ (m.n_states - p.length - 1) * (m.n_states * m.input_symbols.length + 1)
          + m.n_states * m.input_symbols.length :=
      Nat.add_le_add (Nat.mul_le_mul (by omega) (le_refl _)) hw2le
    have hstep2 : (m.n_states - p.length - 1) * (m.n_states * m.input_symbols.length + 1)
          + m.n_states * m.input_symbols.length
        < (m.n_states - p.length) * (m.n_states * m.input_symbols.length + 1) := by
      have hd : 1 ≤ m.n_states - p.length := by omega
      calc (m.n_states - p.length - 1) * (m.n_states * m.input_symbols.length + 1)
            + m.n_states * m.input_symbols.length
          < (m.n_states - p.length - 1) * (m.n_states * m.input_symbols.length + 1)
            + (m.n_states * m.input_symbols.length + 1) := by omega
        _ = ((m.n_states - p.length - 1) + 1)
            * (m.n_states * m.input_symbols.length + 1) := (Nat.succ_mul _ _).symm
        _ = (m.n_states - p.length) * (m.n_states * m.input_symbols.length + 1) := by
            congr 1
            omega
    calc (m.n_states - (hopcroft_iter m tset a0 p ([], ws)).1.length)
          * (m.n_states * m.input_symbols.length + 1)
          + (hopcroft_iter m tset a0 p ([], ws)).2.length
        ≤ (m.n_states - p.length - 1) * (m.n_states * m.input_symbols.length + 1)
          + m.n_states * m.input_symbols.length := hstep1
      _ < (m.n_states - p.length) * (m.n_states * m.input_symbols.length + 1) := hstep2
      _ ≤ (m.n_states - p.length) * (m.n_states * m.input_symbols.length + 1)
          + (ws.length + 1) := Nat.le_add_right _ _

/-- With enough fuel, the `_hopcroft_minimize` loop terminates from any
state satisfying the invariant, and the final partition is stable under
every (class, symbol) splitter. -/
theorem hopcroft_loop_spec (m : Machine I O) (fuel : Nat) :
    ∀ (p : List (Finset Nat)) (w : List (Splitter I)),
    HInv m p w → hmeasure m p w < fuel →
    ∃ pf, hopcroft_loop m fuel p w = some pf
      ∧ IsPart m.n_states pf
      ∧ ∀ b ∈ pf, ∀ a ∈ m.input_symbols, KeyStab m pf b a := by
  induction fuel with
  | zero =>
    intro p w _ hlt
    exact absurd hlt (Nat.not_lt_zero _)
  | succ fuel ih =>
    intro p w hinv hlt
    rcases w with _ | ⟨⟨tset, a0⟩, ws⟩
    · exact ⟨p, rfl, hinv.1, fun b hb a ha => hinv.2.2.2 b hb a ha (List.not_mem_nil _)⟩
    · obtain ⟨hinv2, hdec⟩ := hopcroft_iter_master m tset a0 p ws hinv
      have hlt2 : hmeasure m (hopcroft_iter m tset a0 p ([], ws)).1
          (hopcroft_iter m tset a0 p ([], ws)).2 < fuel := by omega
      obtain ⟨pf, heq, h1, h2⟩ := ih _ _ hinv2 hlt2
      exact ⟨pf, heq, h1, h2⟩

/-- Every class of the loop's final partition is contained in a class
of the starting partition (splitting only ever refines). -/
theorem hopcroft_loop_refines (m : Machine I O) (fuel : Nat) :
    ∀ (p : List (Finset Nat)) (w : List (Splitter I)) (pf : List (Finset Nat)),
      hopcroft_loop m fuel p w = some pf → ∀ c ∈ pf, ∃ g ∈ p, c ⊆ g := by
  induction fuel with
  | zero =>
    intro p w pf h
    cases h
  | succ fuel ih =>
    intro p w pf h c hc
    rcases w with _ | ⟨⟨tset, a0⟩, ws⟩
    · have hpe : p = pf := Option.some.inj h
      exact ⟨c, by rw [hpe]; exact hc, Finset.Subset.refl c⟩
    · have h2 : hopcroft_loop m fuel (hopcroft_iter m tset a0 p ([], ws)).1
          (hopcroft_iter m tset a0 p ([], ws)).2 = some pf := h
      obtain ⟨g1, hg1, hc1⟩ := ih _ _ _ h2 c hc
      rw [hopcroft_iter_fst_mem] at hg1
      rcases hg1 with hg1 | ⟨g, hg, hg1s⟩
      · exact absurd hg1 (List.not_mem_nil _)
      · exact ⟨g, hg, hc1.trans (apply_splitter_subset hg1s)⟩

theorem hinv_initial (m : Machine I O) :
    HInv m (output_partitions m) (initial_waiting m (output_partitions m)) := by
  refine ⟨output_partitions_is_part m, initial_waiting_nodup, ?_, ?_⟩
  · rintro ⟨b, a⟩ hsp
    exact (mem_initial_waiting b a).mp hsp
  · intro b hb a ha hnot
    exact absurd ((mem_initial_waiting b a).mpr ⟨hb, ha⟩) hnot

theorem hmeasure_initial_lt (m : Machine I O) :
    hmeasure m (output_partitions m) (initial_waiting m (output_partitions m))
      < hopcroft_fuel m := by
  have hp := output_partitions_is_part m
  have hple : (output_partitions m).length ≤ m.n_states := is_part_length_le hp
  have hwle : (initial_waiting m (output_partitions m)).length
      ≤ (output_partitions m).length * m.input_symbols.length := by
    apply splitter_list_length_le m _ _ initial_waiting_nodup
    rintro ⟨b, a⟩ hsp
    exact (mem_initial_waiting b a).mp hsp
  have hwle2 : (initial_waiting m (output_partitions m)).length
      ≤ m.n_states * m.input_symbols.length :=
    hwle.trans (Nat.mul_le_mul_right _ hple)
  have h1 : (m.n_states - (output_partitions m).length)
        * (m.n_states * m.input_symbols.length + 1)
      ≤ m.n_states * (m.n_states * m.input_symbols.length + 1) :=
    Nat.mul_le_mul_right _ (Nat.sub_le _ _)
  have h2 : (m.n_states + 2) * (m.n_states * m.input_symbols.length + 2)
      = m.n_states * (m.n_states * m.input_symbols.length + 1)
        + (m.n_states * m.input_symbols.length
            + (m.n_states + m.n_states * m.input_symbols.length + 4)) := by
    ring
  unfold hmeasure hopcroft_fuel
  rw [h2]
  omega

/-- The loop of `_hopcroft_minimize`, run from the output partition
with every (class, symbol) splitter waiting and the fuel bound
`hopcroft_fuel`, terminates; the final partition is a genuine
partition, stable under every splitter, and refines the output
partition (outputs are constant on classes). -/
theorem hopcroft_minimize_loop_spec (m : Machine I O) :
    ∃ pf, hopcroft_loop m (hopcroft_fuel m) (output_partitions m)
        (initial_waiting m (output_partitions m)) = some pf
      ∧ IsPart m.n_states pf
      ∧ (∀ b ∈ pf, ∀ a ∈ m.input_symbols, KeyStab m pf b a)
      ∧ (∀ c ∈ pf, ∀ s ∈ c, ∀ t ∈ c, m.output_table s = m.output_table t) := by
  obtain ⟨pf, heq, h1, h2⟩ := hopcroft_loop_spec m (hopcroft_fuel m) _ _
    (hinv_initial m) (hmeasure_initial_lt m)
  refine ⟨pf, heq, h1, h2, ?_⟩
  intro c hc s hs t ht
  obtain ⟨g, hg, hsub⟩ := hopcroft_loop_refines m (hopcroft_fuel m) _ _ _ heq c hc
  obtain ⟨u, hu, rfl⟩ := mem_output_partitions.mp hg
  have h1s := (Finset.mem_filter.mp (hsub hs)).2
  have h1t := (Finset.mem_filter.mp (hsub ht)).2
  exact h1s.trans h1t.symm

/-- Unpacking of the decidable precondition `total_machine`. -/
theorem total_machine_spec {m : Machine I O} (h : total_machine m = true) :
    (∀ s < m.n_states, ∀ a ∈ m.input_symbols,
        ∃ t, m.trans s a = some t ∧ t < m.n_states)
    ∧ (∀ s < m.n_states, (m.output_table s).isSome)
    ∧ m.input_symbols.Nodup
    ∧ ∃ s0, m.init_state = some s0 ∧ s0 < m.n_states := by
  unfold total_machine at h
  rw [Bool.and_eq_true, Bool.and_eq_true] at h
  obtain ⟨⟨hrows, hnd⟩, hinit⟩ := h
  rw [List.all_eq_true] at hrows
  refine ⟨?_, ?_, of_decide_eq_true hnd, ?_⟩
  · intro s hs a ha
    have hrow := hrows s (List.mem_range.mpr hs)
    rw [Bool.and_eq_true] at hrow
    have h2 := (List.all_eq_true.mp hrow.1) a ha
    cases he : m.trans s a with
    | none =>
      rw [he] at h2
      cases h2
    | some t =>
      rw [he] at h2
      exact ⟨t, rfl, of_decide_eq_true h2⟩
  · intro s hs
    have hrow := hrows s (List.mem_range.mpr hs)
    rw [Bool.and_eq_true] at hrow
    exact hrow.2
  · cases he : m.init_state with
    | none =>
      rw [he] at hinit
      cases hinit
    | some s0 =>
      rw [he] at hinit
      exact ⟨s0, rfl, of_decide_eq_true hinit⟩

/-- On a total machine, `det_step` succeeds for every state and every
alphabet symbol, emitting the current state's output. -/
theorem det_step_total {m : Machine I O} (h : total_machine m = true)
    {s : Nat} (hs : s < m.n_states) {a : I} (ha : a ∈ m.input_symbols) :
    ∃ t o, det_step m s a = some (t, o) ∧ m.trans s a = some t ∧ t < m.n_states
      ∧ m.output_table s = some o := by
  obtain ⟨htr, hout, _, _⟩ := total_machine_spec h
  obtain ⟨t, htra, htlt⟩ := htr s hs a ha
  obtain ⟨o, ho⟩ := Option.isSome_iff_exists.mp (hout s hs)
  have harc : a ∈ arcs_from m s := by
    unfold arcs_from
    refine Finset.mem_filter.mpr ⟨List.mem_toFinset.mpr ha, ?_⟩
    rw [htra]
    rfl
  refine ⟨t, o, ?_, htra, htlt, ho⟩
  unfold det_step
  rw [if_pos harc, htra, ho]
  rfl

/-- One-step simulation: `__from_partitions` of a stable partition
mirrors `det_step` of the source machine, class index for class index,
with identical output. -/
theorem from_partitions_step {m : Machine I O} (htot : total_machine m = true)
    {pf : List (Finset Nat)} (hp : IsPart m.n_states pf)
    (hstab : ∀ b ∈ pf, ∀ a ∈ m.input_symbols, KeyStab m pf b a)
    (hoc : ∀ c ∈ pf, ∀ s ∈ c, ∀ t ∈ c, m.output_table s = m.output_table t)
    {s i : Nat} (hs : s < m.n_states) (hi : find_class_idx s pf = some i)
    {a : I} (ha : a ∈ m.input_symbols) :
    ∃ t o j, det_step m s a = some (t, o)
      ∧ det_step (from_partitions m pf) i a = some (j, o)
      ∧ t < m.n_states ∧ find_class_idx t pf = some j := by
  obtain ⟨hilen, hsmem⟩ := find_class_idx_spec hi
  have hcmem : pf.getD i ∅ ∈ pf := getD_mem hilen
  have hrepmem : class_rep (pf.getD i ∅) ∈ pf.getD i ∅ :=
    class_rep_mem (hp.1 _ hcmem)
  have hreplt : class_rep (pf.getD i ∅) < m.n_states :=
    hp.2.1 _ hcmem _ hrepmem
  obtain ⟨t, o, hds, htra, htlt, ho⟩ := det_step_total htot hs ha
  obtain ⟨tr, orr, hdsr, htrar, htrlt, hor⟩ := det_step_total htot hreplt ha
  obtain ⟨d, hd, htd⟩ := hp.2.2.1 t htlt
  obtain ⟨j, hj⟩ := find_class_idx_of_mem ⟨d, hd, htd⟩
  obtain ⟨hjlen, htj⟩ := find_class_idx_spec hj
  have hkey := hstab (pf.getD j ∅) (getD_mem hjlen) a ha (pf.getD i ∅) hcmem
    s hsmem (class_rep (pf.getD i ∅)) hrepmem
  unfold split_key at hkey
  rw [hds, hdsr] at hkey
  have hfst : decide (t ∈ pf.getD j ∅) = decide (tr ∈ pf.getD j ∅) :=
    congrArg Prod.fst hkey
  have htrj : tr ∈ pf.getD j ∅ := by
    have hb : decide (tr ∈ pf.getD j ∅) = true := by
      rw [← hfst]
      exact decide_eq_true htj
    exact of_decide_eq_true hb
  have hjtr : find_class_idx tr pf = some j := find_class_idx_eq_of_mem hp hjlen htrj
  have hMtrans : (from_partitions m pf).trans i a = some j := by
    show fp_trans m pf i a = some j
    unfold fp_trans
    rw [if_pos ⟨hilen, ha⟩, htrar]
    simpa using hjtr
  have houteq : m.output_table s = m.output_table (class_rep (pf.getD i ∅)) :=
    hoc _ hcmem s hsmem _ hrepmem
  have hMout : (from_partitions m pf).output_table i = some o := by
    show (if i < pf.length then m.output_table (class_rep (pf.getD i ∅)) else none)
      = some o
    rw [if_pos hilen, ← houteq]
    exact ho
  have hMin : a ∈ (from_partitions m pf).input_symbols := by
    show a ∈ ((List.range pf.length).flatMap
      (fun i2 => m.input_symbols.filter (fun a2 => (fp_trans m pf i2 a2).isSome))).dedup
    rw [List.mem_dedup, List.mem_flatMap]
    refine ⟨i, List.mem_range.mpr hilen, List.mem_filter.mpr ⟨ha, ?_⟩⟩
    rw [show fp_trans m pf i a = some j from hMtrans]
    rfl
  have harc : a ∈ arcs_from (from_partitions m pf) i := by
    unfold arcs_from
    refine Finset.mem_filter.mpr ⟨List.mem_toFinset.mpr hMin, ?_⟩
    rw [hMtrans]
    rfl
  refine ⟨t, o, j, hds, ?_, htlt, hj⟩
  unfold det_step
  rw [if_pos harc, hMtrans, hMout]
  rfl

/-- Word simulation: on a total machine, `process_word_from` of the
minimized machine started at the class of `s` produces exactly the
outputs of `process_word_from` of the source machine started at `s`,
for every word over the alphabet. -/
theorem from_partitions_pw {m : Machine I O} (htot : total_machine m = true)
    {pf : List (Finset Nat)} (hp : IsPart m.n_states pf)
    (hstab : ∀ b ∈ pf, ∀ a ∈ m.input_symbols, KeyStab m pf b a)
    (hoc : ∀ c ∈ pf, ∀ s ∈ c, ∀ t ∈ c, m.output_table s = m.output_table t) :
    ∀ (w : List I), (∀ a ∈ w, a ∈ m.input_symbols) →
    ∀ (s i : Nat), s < m.n_states → find_class_idx s pf = some i →
    ∃ outs send iend,
      process_word_from m s w true = some (outs, send)
      ∧ process_word_from (from_partitions m pf) i w true = some (outs, iend)
      ∧ send < m.n_states ∧ find_class_idx send pf = some iend := by
  intro w
  induction w with
  | nil =>
    intro _ s i hs hi
    exact ⟨[], s, i, rfl, rfl, hs, hi⟩
  | cons a w ih =>
    intro hw s i hs hi
    have ha : a ∈ m.input_symbols := hw a (List.mem_cons_self a w)
    obtain ⟨t, o, j, hds, hMds, htlt, hj⟩ :=
      from_partitions_step htot hp hstab hoc hs hi ha
    obtain ⟨outs, send, iend, h1, h2, h3, h4⟩ :=
      ih (fun b hb => hw b (List.mem_cons_of_mem a hb)) t j htlt hj
    refine ⟨o :: outs, send, iend, ?_, ?_, h3, h4⟩
    · simp only [process_word_from]
      rw [hds]
      simp only [h1, Option.map_some']
    · simp only [process_word_from]
      rw [hMds]
      simp only [h2, Option.map_some']

/-- C4: `M.is_equivalent(M)` — a call where both arguments are the same
object, so the `machine is self` shortcut fires — always returns
`True`; and `A.is_equivalent(B)` returns exactly what
`B.is_equivalent(A)` returns (including agreeing on whether the call
raises), for every pair of machines. -/
theorem c4_is_equivalent_refl_symm :
    (∀ (m : Machine I O), is_equivalent_method true m m = some true)
    ∧ ∀ (same_object : Bool) (m1 m2 : Machine I O),
        is_equivalent_method same_object m1 m2 = is_equivalent_method same_object m2 m1 := by
  constructor
  · intro m
    rfl
  · intro so m1 m2
    cases so
    · simpa [is_equivalent_method] using is_equivalent_symm m1 m2
    · rfl

/-- C1: behavior preservation of minimization.  For every Moore machine
that is total (a transition for every state and every symbol of its
derived input alphabet), has an output assigned to every state and has
a (valid) initial state set, `minimize` succeeds and, for every finite
word over the machine's input alphabet, `process_word` of the input
machine and of the minimized machine return one and the same (present)
output sequence. -/
theorem c1_minimize_preserves_behavior (m : Machine I O)
    (htot : total_machine m = true) (w : List I)
    (hw : ∀ a ∈ w, a ∈ m.input_symbols) :
    ∃ m', minimize m = some m'
      ∧ process_word m w true = process_word m' w true
      ∧ (process_word m w true).isSome := by
  obtain ⟨pf, hloop, hpart, hstab, hoc⟩ := hopcroft_minimize_loop_spec m
  obtain ⟨_, _, _, s0, hinit, hs0lt⟩ := total_machine_spec htot
  obtain ⟨c0, hc0, hs0c⟩ := hpart.2.2.1 s0 hs0lt
  obtain ⟨i0, hi0⟩ := find_class_idx_of_mem ⟨c0, hc0, hs0c⟩
  obtain ⟨hi0len, hs0i0⟩ := find_class_idx_spec hi0
  obtain ⟨outs, send, iend, h1, h2, _, _⟩ :=
    from_partitions_pw htot hpart hstab hoc w hw s0 i0 hs0lt hi0
  have hpw1 : process_word m w true = some outs := by
    unfold process_word
    rw [hinit]
    show (process_word_from m s0 w true).map (fun p => p.1) = some outs
    rw [h1]
    rfl
  have hinitM : (from_partitions m pf).init_state = some i0 := by
    show fp_init_idx m pf = some i0
    unfold fp_init_idx
    rw [hinit]
    exact find_class_idx_last_eq_of_mem hpart hi0len hs0i0
  have hpw2 : process_word (from_partitions m pf) w true = some outs := by
    unfold process_word
    rw [hinitM]
    show (process_word_from (from_partitions m pf) i0 w true).map (fun p => p.1)
      = some outs
    rw [h2]
    rfl
  refine ⟨from_partitions m pf, ?_, ?_, ?_⟩
  · show (hopcroft_loop m (hopcroft_fuel m) (output_partitions m)
        (initial_waiting m (output_partitions m))).map (from_partitions m)
      = some (from_partitions m pf)
    rw [hloop]
    rfl
  · rw [hpw1, hpw2]
  · rw [hpw1]
    rfl

theorem c1_witness :
    total_machine maker1_machine = true
    ∧ (∀ a ∈ [0, 1, 1], a ∈ maker1_machine.input_symbols)
    ∧ ∃ m', minimize maker1_machine = some m'
        ∧ process_word maker1_machine [0, 1, 1] true = process_word m' [0, 1, 1] true
        ∧ (process_word maker1_machine [0, 1, 1] true).isSome :=
  ⟨by decide, by decide,
    c1_minimize_preserves_behavior maker1_machine (by decide) [0, 1, 1] (by decide)⟩

end Minimoore
